import Mathlib

/-!
Verification of the FIBRE (Blockstream/bitcoinfibre) FEC pipeline and UDP
relay core, shallowly embedded from src/src/fec.cpp and src/src/udpnet.cpp.

Bytes are modelled as natural numbers (values < 256 where relevant), buffers
as lists of bytes, machine arithmetic as Nat/Int with explicit reductions
modulo 2^w where the C code can overflow.  External libraries that are not
part of this repository (wirehair, cm256, poly1305, the Throttle token
bucket, libc string-to-integer conversion) are modelled as explicit oracle
parameters or, where the spec pins down their behaviour, as definitions
whose doc comment says so.
-/

namespace Fibre

/-- From fec.h (declarations only; the header itself is not under src/).
Modelled from the spec: chunks are fixed payloads of 1152 bytes (spec section 3). -/
def FEC_CHUNK_SIZE : Nat := 1152

/-- From fec.h. Modelled from the spec: 24-bit chunk ids are stored as
little-endian packed three bytes in the chunk store (spec sections 3, 4.4). -/
def CHUNK_ID_SIZE : Nat := 3

/-- From fec.h. Modelled from the spec: cm256 is chosen for chunk counts
between 2 and 256 (spec section 3, CodingMode). -/
def CM256_MAX_CHUNKS : Nat := 256

/-- From fec.h. Modelled from the spec: the wirehair chunk-id space is 24-bit,
so the largest representable chunk id is 2^24 - 1 (spec sections 3 and 4.2:
InvalidId when the id exceeds 2^24 - 1 for wirehair). -/
def FEC_CHUNK_COUNT_MAX : Nat := 2 ^ 24 - 1

/-- fec.cpp: DIV_CEIL(a, b) = ((a) + (b) - 1) / (b). -/
def DIV_CEIL (a b : Nat) : Nat := (a + b - 1) / b

/-- fec.cpp: CHUNK_COUNT_USES_CM256(chunks) = chunks >= 2 && chunks <= CM256_MAX_CHUNKS. -/
def CHUNK_COUNT_USES_CM256 (chunks : Nat) : Bool :=
  2 ≤ chunks && chunks ≤ CM256_MAX_CHUNKS

/-- fec.cpp: CHUNK_COUNT_USES_WIREHAIR(chunks) = chunks > CM256_MAX_CHUNKS. -/
def CHUNK_COUNT_USES_WIREHAIR (chunks : Nat) : Bool :=
  CM256_MAX_CHUNKS < chunks

/-- A FEC chunk payload: FEC_CHUNK_SIZE bytes. -/
abbrev FECChunk := List Nat

/-- fec.h: enum class MemoryUsageMode { USE_MMAP, USE_MEMORY }. -/
inductive MemoryUsageMode where
  | USE_MMAP
  | USE_MEMORY
deriving DecidableEq, Repr

/-- Result codes of the external wirehair codec (wirehair.h, not part of this
repository).  fec.cpp only distinguishes Wirehair_Success, Wirehair_NeedMore
and every other (error) result. -/
inductive WirehairResult where
  | Success
  | NeedMore
  | OtherError
deriving DecidableEq, Repr

/-- Abstract state of a wirehair decoder instance: the sequence of
(chunk id, chunk data) pairs fed to wirehair_decode so far.  The behaviour of
the external codec is a deterministic function of this sequence; it is
supplied to the model as an oracle (see WirehairOracle). -/
abbrev WirehairState := List (Nat × FECChunk)

/-- Oracle describing the external wirehair_decode return value after the
given sequence of chunks has been fed in. -/
abbrev WirehairOracle := WirehairState → WirehairResult

/-- FECDecoder (fec.h members, semantics from fec.cpp).

* chunk_count, obj_size, chunks_recvd, decodeComplete and memory_usage_mode
  mirror the C++ members directly.
* chunk_tracker models BlockChunkRecvdTracker; the tracker class itself lives
  in fec.h/fec.cpp helpers not under src/.  Modelled from the spec
  (section 4.3): it is a set of already-seen chunk ids with O(1)
  check_and_mark; here the set of marked ids is kept as a list.
* tmp_chunk is the single-chunk buffer used by repetition coding.
* storage is, in USE_MMAP mode, the sequence of (chunk, chunk id) pairs that
  ProvideChunkMmap has inserted into the backing MapStorage file (slot i holds
  the i-th received chunk); in USE_MEMORY cm256 mode it is the combined
  contents of cm256_chunks and the Block/Index fields of cm256_blocks, which
  are likewise filled in arrival order.
* wirehair_decoder is the abstract state of the borrowed wirehair codec, or
  none when no codec is attached. -/
structure FECDecoder where
  chunk_count : Nat
  obj_size : Nat
  chunks_recvd : Nat
  decodeComplete : Bool
  chunk_tracker : List Nat
  memory_usage_mode : MemoryUsageMode
  tmp_chunk : FECChunk
  storage : List (FECChunk × Nat)
  wirehair_decoder : Option WirehairState
deriving DecidableEq, Repr

/-- FECDecoder::FECDecoder(data_size, memory_mode, obj_id) from fec.cpp.
For chunk_count >= 2 in USE_MMAP mode the constructor creates the backing
file (modelled separately by MapStorage); in USE_MEMORY mode it reserves
cm256_chunks or borrows a wirehair codec.  The obj_id only affects the
backing filename and is not part of the decode state modelled here. -/
def FECDecoder.init (data_size : Nat) (memory_mode : MemoryUsageMode) : FECDecoder :=
  let cc := DIV_CEIL data_size FEC_CHUNK_SIZE
  { chunk_count := cc
    obj_size := data_size
    chunks_recvd := 0
    decodeComplete := false
    chunk_tracker := []
    memory_usage_mode := memory_mode
    tmp_chunk := List.replicate FEC_CHUNK_SIZE 0
    storage := []
    wirehair_decoder :=
      if 2 ≤ cc ∧ ¬ (CHUNK_COUNT_USES_CM256 cc) ∧ memory_mode = MemoryUsageMode.USE_MEMORY
      then some [] else none }

/-- The loop inside FECDecoder::ProvideChunkMmap that runs when the
chunk_count-th chunk arrives: all stored chunks are fed one by one into a
freshly created wirehair decoder; Wirehair_Success breaks out with success,
any result other than Success/NeedMore aborts with failure (return false),
and running out of chunks leaves the decode incomplete.
Returns the final codec state and: some true on Wirehair_Success,
some false on an error result, none when every call reported NeedMore. -/
def whFeedLoop (O : WirehairOracle) : WirehairState → List (FECChunk × Nat) →
    WirehairState × Option Bool
  | ws, [] => (ws, none)
  | ws, (c, cid) :: rest =>
    let ws' := ws ++ [(cid, c)]
    if O ws' = WirehairResult.Success then (ws', some true)
    else if O ws' = WirehairResult.NeedMore then whFeedLoop O ws' rest
    else (ws', some false)

/-- FECDecoder::ProvideChunkMmap from fec.cpp (lines 270-324).  The opened
MapStorage is modelled by the storage field (the decoder owns its backing
file exclusively).  Insert stores the 24-bit chunk id (3 bytes). -/
def FECDecoder.ProvideChunkMmap (O : WirehairOracle) (d : FECDecoder)
    (chunk : FECChunk) (chunk_id : Nat) : Bool × FECDecoder :=
  -- if (chunks_recvd < chunk_count) map_storage.Insert(chunk, chunk_id, chunks_recvd);
  let storage' := if d.chunks_recvd < d.chunk_count
                  then d.storage ++ [(chunk, chunk_id % 2 ^ 24)] else d.storage
  if CHUNK_COUNT_USES_CM256 d.chunk_count then
    let complete' := if d.chunk_count = d.chunks_recvd + 1 then true else d.decodeComplete
    (true, { d with storage := storage', decodeComplete := complete',
                    chunks_recvd := d.chunks_recvd + 1 })
  else
    if d.chunks_recvd + 1 = d.chunk_count then
      -- last expected chunk: pull all chunks back in from the storage and
      -- feed them to a fresh wirehair decoder; Wirehair_Success sets
      -- decodeComplete, a hard error returns false before ++chunks_recvd
      let fr := whFeedLoop O [] storage'
      (decide (fr.2 ≠ some false),
       { d with storage := storage', wirehair_decoder := some fr.1,
                decodeComplete := if fr.2 = some true then true else d.decodeComplete,
                chunks_recvd := if fr.2 = some false then d.chunks_recvd
                                else d.chunks_recvd + 1 })
    else if d.chunk_count ≤ d.chunks_recvd then
      -- already tried decoding from disk: keep feeding the live codec
      -- (the C++ asserts wirehair_decoder != nullptr here); a result other
      -- than Success/NeedMore returns false before ++chunks_recvd
      let ws' := d.wirehair_decoder.getD [] ++ [(chunk_id, chunk)]
      let res := O ws'
      (decide (res = WirehairResult.Success ∨ res = WirehairResult.NeedMore),
       { d with storage := storage', wirehair_decoder := some ws',
                decodeComplete := if res = WirehairResult.Success then true
                                  else d.decodeComplete,
                chunks_recvd := if res = WirehairResult.Success ∨ res = WirehairResult.NeedMore
                                then d.chunks_recvd + 1 else d.chunks_recvd })
    else
      (true, { d with storage := storage', chunks_recvd := d.chunks_recvd + 1 })

/-- FECDecoder::ProvideChunkMemory from fec.cpp (lines 327-351).  In the
cm256 branch the chunk is appended to cm256_chunks and registered in
cm256_blocks[chunks_recvd] with Index = (uint8_t)chunk_id. -/
def FECDecoder.ProvideChunkMemory (O : WirehairOracle) (d : FECDecoder)
    (chunk : FECChunk) (chunk_id : Nat) : Bool × FECDecoder :=
  if CHUNK_COUNT_USES_CM256 d.chunk_count then
    let complete' := if d.chunk_count = d.chunks_recvd + 1 then true else d.decodeComplete
    (true, { d with storage := d.storage ++ [(chunk, chunk_id % 256)],
                    decodeComplete := complete', chunks_recvd := d.chunks_recvd + 1 })
  else
    -- wirehair_decode on the live codec: Success completes the decode, a
    -- result other than Success/NeedMore returns false before chunks_recvd++
    let ws' := d.wirehair_decoder.getD [] ++ [(chunk_id, chunk)]
    let res := O ws'
    (decide (res = WirehairResult.Success ∨ res = WirehairResult.NeedMore),
     { d with wirehair_decoder := some ws',
              decodeComplete := if res = WirehairResult.Success then true
                                else d.decodeComplete,
              chunks_recvd := if res = WirehairResult.Success ∨ res = WirehairResult.NeedMore
                              then d.chunks_recvd + 1 else d.chunks_recvd })

/-- FECDecoder::ProvideChunk from fec.cpp (lines 245-267).  Returns the C++
return value together with the post-state. -/
def FECDecoder.ProvideChunk (O : WirehairOracle) (d : FECDecoder)
    (chunk : FECChunk) (chunk_id : Nat) : Bool × FECDecoder :=
  if (if CHUNK_COUNT_USES_CM256 d.chunk_count
      then 0xff < chunk_id else FEC_CHUNK_COUNT_MAX < chunk_id) then
    (false, d)
  else if d.decodeComplete then
    (true, d)
  else if d.chunk_tracker.contains chunk_id then
    -- chunk_tracker.CheckPresentAndMarkRecvd found the id already present
    (true, d)
  else
    -- CheckPresentAndMarkRecvd marks the id as received
    let d1 := { d with chunk_tracker := chunk_id :: d.chunk_tracker }
    if d1.chunk_count < 2 then
      -- for 1-packet data, just keep the chunk
      (true, { d1 with tmp_chunk := chunk, decodeComplete := true })
    else if d1.memory_usage_mode = MemoryUsageMode.USE_MMAP then
      d1.ProvideChunkMmap O chunk chunk_id
    else
      d1.ProvideChunkMemory O chunk chunk_id

/-- FECDecoder::DecodeReady from fec.cpp. -/
def FECDecoder.DecodeReady (d : FECDecoder) : Bool := d.decodeComplete

/-- FECDecoder::GetDecodedData from fec.cpp (lines 388-408).  The
chunk_count == 1 branch copies obj_size bytes out of tmp_chunk.  The cm256
and wirehair branches reconstruct the object through the external cm256 /
wirehair codecs (cm256_decode, wirehair_recover), which are not part of this
repository; their combined result is supplied as the oracle parameter. -/
def FECDecoder.GetDecodedData (codecRecover : FECDecoder → List Nat)
    (d : FECDecoder) : List Nat :=
  if d.chunk_count = 1 then d.tmp_chunk.take d.obj_size
  else codecRecover d

/-- Folding ProvideChunk over a list of (chunk, chunk id) pairs, ignoring the
boolean return values (the successive calls a receiver makes). -/
def FECDecoder.provideSeq (O : WirehairOracle) (d : FECDecoder) :
    List (FECChunk × Nat) → FECDecoder
  | [] => d
  | (c, cid) :: rest => ((d.ProvideChunk O c cid).2).provideSeq O rest

/-- The chunk-id bound enforced by the first line of FECDecoder::ProvideChunk
(fec.cpp line 246): 0xff in cm256 mode, FEC_CHUNK_COUNT_MAX otherwise. -/
def modeIdBound (chunks : Nat) : Nat :=
  if CHUNK_COUNT_USES_CM256 chunks then 0xff else FEC_CHUNK_COUNT_MAX

/-!  FECEncoder (fec.cpp lines 457-607). -/

/-- zero-padding a buffer out to n bytes (the memcpy+memset idiom used for
repetition coding and for the last partial chunk). -/
def padTo (n : Nat) (xs : List Nat) : List Nat :=
  xs ++ List.replicate (n - xs.length) 0

/-- The external encoding primitives used by FECEncoder::BuildChunk, as
functions of the chunk id for a fixed source object:
* cm256_encode_block (cm256.h, not part of this repository) produces the
  recovery block for a given chunk id from this encoder's cm256_blocks;
* wirehair_encode (wirehair.h, not part of this repository) produces the
  encoded chunk (already zero-padded to FEC_CHUNK_SIZE as done by the
  caller), or none when it reports a non-success result. -/
structure EncOracles where
  cm256_encode_block : Nat → FECChunk
  wirehair_encode : Nat → Option FECChunk

/-- The divisor (0xff - data_chunks) in FECEncoder::BuildChunk (fec.cpp line
569), evaluated in C size_t arithmetic: 255 - n modulo 2^64, which is
255 - n for n <= 255 and wraps to 2^64 - 1 for n = 256. -/
def cm256Modulus (n : Nat) : Nat := (0xff + 2 ^ 64 - n) % 2 ^ 64

/-- FECEncoder (fec.h members, semantics from fec.cpp):
* data is the borrowed source buffer (*dataIn);
* fec_chunks / chunk_ids are fec_chunks->first and fec_chunks->second
  (a chunk id of 0 means the slot has not been built);
* cm256_start_idx is the random cm256 id offset, none while still -1. -/
structure FECEncoder where
  data : List Nat
  fec_chunks : List FECChunk
  chunk_ids : List Nat
  cm256_start_idx : Option Nat
deriving DecidableEq, Repr

/-- A freshly constructed FECEncoder over the given source buffer with n
output slots: ids start at zero ("not built"); cm256_start_idx starts at -1. -/
def FECEncoder.init (data : List Nat) (n : Nat) : FECEncoder :=
  { data := data
    fec_chunks := List.replicate n (List.replicate FEC_CHUNK_SIZE 0)
    chunk_ids := List.replicate n 0
    cm256_start_idx := none }

/-- FECEncoder::BuildChunk(vector_idx, overwrite) from fec.cpp (lines
548-594).  Returns none when the C++ has no defined result: vector_idx
out of range (the code throws, line 550), or a cm256 object with
data_chunks = 255, where the divisor (0xff - data_chunks) of the modulo
at line 569 is zero, so the division is undefined behavior (a crash).
Otherwise some (return value, post-state).

The two random draws are modelled by the rnd parameter: GetRand(0xff)
(Bitcoin Core random.h, not part of this repository; uniform on [0, 0xff))
becomes rnd % 0xff, and rand.randrange(FEC_CHUNK_COUNT_MAX - data_chunks)
(uniform on [0, bound)) becomes rnd % (FEC_CHUNK_COUNT_MAX - data_chunks). -/
def FECEncoder.BuildChunk (ext : EncOracles) (e : FECEncoder) (vector_idx : Nat)
    (overwrite : Bool) (rnd : Nat) : Option (Bool × FECEncoder) :=
  if e.chunk_ids.length ≤ vector_idx then none
  else if overwrite = false ∧ e.chunk_ids.getD vector_idx 0 ≠ 0 then some (true, e)
  else
    let data_chunks := DIV_CEIL e.data.length FEC_CHUNK_SIZE
    if data_chunks < 2 then
      -- repetition: copy the source and zero-pad; chunk_id = vector_idx
      some (true, { e with
        fec_chunks := e.fec_chunks.set vector_idx (padTo FEC_CHUNK_SIZE e.data)
        chunk_ids := e.chunk_ids.set vector_idx vector_idx })
    else if CHUNK_COUNT_USES_CM256 data_chunks = true ∧ cm256Modulus data_chunks = 0 then
      -- fec.cpp line 569: % (0xff - data_chunks) with a zero divisor
      none
    else
      let pick :=
        if CHUNK_COUNT_USES_CM256 data_chunks then
          let start := e.cm256_start_idx.getD (rnd % 0xff)
          ({ e with cm256_start_idx := some start },
           ((start + vector_idx) % cm256Modulus data_chunks) % 2 ^ 32)
        else
          (e, rnd % (FEC_CHUNK_COUNT_MAX - data_chunks))
      let e1 := pick.1
      let chunk_id := pick.2 + data_chunks
      if overwrite = true ∧ e1.chunk_ids.getD vector_idx 0 = chunk_id then
        some (true, e1)
      else if CHUNK_COUNT_USES_CM256 data_chunks then
        some (true, { e1 with
          fec_chunks := e1.fec_chunks.set vector_idx (ext.cm256_encode_block chunk_id)
          chunk_ids := e1.chunk_ids.set vector_idx chunk_id })
      else
        match ext.wirehair_encode chunk_id with
        | none => some (false, e1)
        | some chunk =>
          some (true, { e1 with
            fec_chunks := e1.fec_chunks.set vector_idx chunk
            chunk_ids := e1.chunk_ids.set vector_idx chunk_id })

/-!  Concrete fixtures used by witness theorems. -/

/-- An all-zero chunk payload. -/
def zeroChunk : FECChunk := List.replicate FEC_CHUNK_SIZE 0

/-- A wirehair oracle that always reports NeedMore. -/
def oracleNeedMore : WirehairOracle := fun _ => WirehairResult.NeedMore

/-- A fresh in-memory cm256 decoder for a 2-chunk (2304-byte) object. -/
def dCm256 : FECDecoder := FECDecoder.init 2304 MemoryUsageMode.USE_MEMORY

/-- The cm256 decoder after one chunk (id 3) has been provided. -/
def dCm256after : FECDecoder :=
  (FECDecoder.ProvideChunk oracleNeedMore dCm256 zeroChunk 3).2

/-- A completed repetition decoder: the state after providing the single
chunk of a 5-byte object. -/
def dDone : FECDecoder :=
  (FECDecoder.ProvideChunk oracleNeedMore (FECDecoder.init 5 MemoryUsageMode.USE_MEMORY)
    zeroChunk 0).2

/-- Trivial external-codec oracles for concrete runs. -/
def extTrivial : EncOracles :=
  { cm256_encode_block := fun _ => []
    wirehair_encode := fun _ => none }

/-- A fresh repetition encoder over the 5-byte object [1,2,3,4,5] with one
output slot. -/
def eRep : FECEncoder := FECEncoder.init [1, 2, 3, 4, 5] 1

/-- A 2304-byte all-ones object: exactly N = 2 data chunks (cm256 mode). -/
def dataCm2 : List Nat := List.replicate 2304 1

/-- A cm256 encoder over dataCm2 with 254 output slots. -/
def eCm2 : FECEncoder := FECEncoder.init dataCm2 254

/-!  MapStorage (fec.cpp lines 75-150): the mmap-backed chunk store.  The
backing file at the constructor's path is modelled as a byte list passed in
and out explicitly; the mapping (m_data_storage) is modelled by recording
whether the object holds one, together with the protection and sharing
flags of the mmap call that created it. -/

/-- The flags of an ::mmap call. -/
structure MMapFlags where
  prot_read : Bool
  prot_write : Bool
  map_shared : Bool
deriving DecidableEq, Repr

/-- MapStorage members: m_chunk_count, m_file_size and whether/how the
storage is mapped (none models m_data_storage == nullptr). -/
structure MapStorage where
  m_chunk_count : Nat
  m_file_size : Nat
  m_mapping : Option MMapFlags
deriving DecidableEq, Repr

/-- MapStorage::MapStorage(p, c, create) from fec.cpp lines 75-104.  The
file argument is the current content of the file at path p (none when the
file does not exist); the result is the constructed object together with
the file's new content, or none when the constructor throws (::open without
O_CREAT on a missing file).  With create = true the file is opened with
O_RDWR|O_CREAT and ::ftruncate'd to (CHUNK_ID_SIZE + FEC_CHUNK_SIZE) * c
bytes (zero-fill on extension) — and is NOT mapped; only the create = false
branch calls ::mmap(PROT_READ|PROT_WRITE, MAP_SHARED) and sets
m_data_storage/m_id_storage. -/
def MapStorage.construct (file : Option (List Nat)) (c : Nat) (create : Bool) :
    Option (MapStorage × List Nat) :=
  let size := (CHUNK_ID_SIZE + FEC_CHUNK_SIZE) * c
  if create then
    let f0 := file.getD []
    let f1 := f0.take size ++ List.replicate (size - (f0.take size).length) 0
    some ({ m_chunk_count := c, m_file_size := size, m_mapping := none }, f1)
  else
    match file with
    | none => none
    | some f =>
      some ({ m_chunk_count := c, m_file_size := size,
              m_mapping := some { prot_read := true, prot_write := true,
                                  map_shared := true } }, f)

/-- memcpy of xs into the mapped file at byte offset off. -/
def writeAt (f : List Nat) (off : Nat) (xs : List Nat) : List Nat :=
  f.take off ++ xs ++ f.drop (off + xs.length)

/-- reading len bytes of the mapped file at byte offset off. -/
def readAt (f : List Nat) (off : Nat) (len : Nat) : List Nat :=
  (f.drop off).take len

/-- The little-endian 3-byte encoding of a chunk id, as produced by
memcpy(dest, &chunk_id, CHUNK_ID_SIZE) on a uint32. -/
def idBytes (chunk_id : Nat) : List Nat :=
  [chunk_id % 256, chunk_id / 256 % 256, chunk_id / 65536 % 256]

/-- Reassembling a chunk id from its 3 stored bytes, as done by
memcpy(&chunk_id, src, CHUNK_ID_SIZE) into a zero-initialised uint32. -/
def idOfBytes (bs : List Nat) : Nat :=
  bs.getD 0 0 + 256 * bs.getD 1 0 + 65536 * bs.getD 2 0

/-- MapStorage::Insert(chunk, chunk_id, idx) from fec.cpp lines 112-119:
copy FEC_CHUNK_SIZE chunk bytes to data slot idx and the 3 chunk-id bytes
to the id region at the end of the file.  The GetChunk bounds check throws
on idx >= m_chunk_count (none); the memcpy through an unmapped storage
dereferences the null m_data_storage (none). -/
def MapStorage.Insert (st : MapStorage) (file : List Nat) (chunk : FECChunk)
    (chunk_id : Nat) (idx : Nat) : Option (List Nat) :=
  if idx < st.m_chunk_count then
    match st.m_mapping with
    | none => none
    | some _ =>
      let f1 := writeAt file (idx * FEC_CHUNK_SIZE) chunk
      some (writeAt f1 (st.m_chunk_count * FEC_CHUNK_SIZE + idx * CHUNK_ID_SIZE)
        (idBytes chunk_id))
  else none

/-- MapStorage::GetChunk from fec.cpp lines 121-127: the FEC_CHUNK_SIZE
bytes of data slot idx; bounds-checked, and readable only through a live
mapping. -/
def MapStorage.GetChunk (st : MapStorage) (file : List Nat) (idx : Nat) :
    Option (List Nat) :=
  if idx < st.m_chunk_count then
    match st.m_mapping with
    | none => none
    | some _ => some (readAt file (idx * FEC_CHUNK_SIZE) FEC_CHUNK_SIZE)
  else none

/-- MapStorage::GetChunkId from fec.cpp lines 129-137: the 24-bit id stored
for slot idx. -/
def MapStorage.GetChunkId (st : MapStorage) (file : List Nat) (idx : Nat) :
    Option Nat :=
  if idx < st.m_chunk_count then
    match st.m_mapping with
    | none => none
    | some _ =>
      some (idOfBytes (readAt file
        (st.m_chunk_count * FEC_CHUNK_SIZE + idx * CHUNK_ID_SIZE) CHUNK_ID_SIZE))
  else none

/-!  UDP packet authentication and scrambling (udpnet.cpp lines 103-140). -/

/-- The little-endian bytes of a 64-bit value. -/
def magicBytes (magic : Nat) : List Nat :=
  (List.range 8).map fun i => magic / 256 ^ i % 256

/-- The 32-byte poly1305 key built by FillChecksum/CheckChecksum: the 8-byte
connection magic replicated four times. -/
def checksumKey (magic : Nat) : List Nat :=
  magicBytes magic ++ magicBytes magic ++ magicBytes magic ++ magicBytes magic

/-- External poly1305_auth (crypto library, not part of this repository):
(message bytes, 32-byte key) to 16-byte tag. -/
abbrev AuthOracle := List Nat → List Nat → List Nat

/-- A UDPMessage as seen by Fill/CheckChecksum: the two 64-bit header
checksum fields chk1/chk2 (as 8-byte strings) and the length - 16 remaining
bytes starting at msg_type. -/
structure UDPMessage where
  chk1 : List Nat
  chk2 : List Nat
  body : List Nat
deriving DecidableEq, Repr

/-- The XOR scramble loop shared by FillChecksum and CheckChecksum
(udpnet.cpp lines 117-121 and 125-129): byte i + j of the body is XORed
with byte j of chk1 in 8-byte blocks.  The loop indexes
((unsigned char*)&msg.header.chk1)[j] with j < 8, so only chk1's 8 bytes
are ever used, for every block. -/
def scrambleFrom (chk1 : List Nat) (k : Nat) : List Nat → List Nat
  | [] => []
  | b :: rest => (b ^^^ chk1.getD (k % 8) 0) :: scrambleFrom chk1 (k + 1) rest

/-- The scramble applied to a whole body. -/
def scramble (chk1 body : List Nat) : List Nat := scrambleFrom chk1 0 body

/-- FillChecksum from udpnet.cpp lines 103-122: compute the poly1305 tag of
the plaintext body under the replicated-magic key, store its halves in
chk1/chk2, then scramble the body. -/
def FillChecksum (auth : AuthOracle) (magic : Nat) (msg : UDPMessage) : UDPMessage :=
  let tag := auth msg.body (checksumKey magic)
  { chk1 := tag.take 8, chk2 := tag.drop 8, body := scramble (tag.take 8) msg.body }

/-- CheckChecksum from udpnet.cpp lines 123-140: descramble the body with
the header's chk1, recompute the tag over the descrambled bytes, and
compare both tag halves.  Returns the verification result together with the
descrambled message. -/
def CheckChecksum (auth : AuthOracle) (magic : Nat) (msg : UDPMessage) :
    Bool × UDPMessage :=
  let body' := scramble msg.chk1 msg.body
  let tag := auth body' (checksumKey magic)
  (decide (msg.chk1 = tag.take 8) && decide (msg.chk2 = tag.drop 8),
   { msg with body := body' })

/-- The scramble as the spec describes it: 8-byte blocks XORed with the two
8-byte halves of the tag, alternating chk1/chk2.  Stated from the spec's
words (section 4.7) for comparison against the code's scramble. -/
def scrambleSpecFrom (chk1 chk2 : List Nat) (k : Nat) : List Nat → List Nat
  | [] => []
  | b :: rest =>
    (b ^^^ (if k / 8 % 2 = 0 then chk1 else chk2).getD (k % 8) 0) ::
      scrambleSpecFrom chk1 chk2 (k + 1) rest

/-- The alternating-halves scramble applied to a whole body. -/
def scrambleSpec (chk1 chk2 body : List Nat) : List Nat :=
  scrambleSpecFrom chk1 chk2 0 body

/-- A constant auth oracle whose tag halves differ, for concrete runs. -/
def authConst16 : AuthOracle :=
  fun _ _ => [1, 0, 0, 0, 0, 0, 0, 0, 2, 0, 0, 0, 0, 0, 0, 0]

/-- A 16-byte all-zero message body with zeroed checksum fields. -/
def msg16 : UDPMessage :=
  { chk1 := List.replicate 8 0, chk2 := List.replicate 8 0,
    body := List.replicate 16 0 }

/-!  The transmit scheduler: one per-group pass of the single sender thread
(udpnet.cpp, do_send_messages, lines 1005-1203). -/

/-- udpnet.cpp line 1003: maximum number of consecutive transmissions from
the same queue group. -/
def max_consecutive_tx : Nat := 10

/-- sizeof(UDPMessage).  Modelled from the spec: one UDP datagram carries at
most 1167 bytes, a 1152-byte chunk plus the 15-byte framing after the tag
(section 6, wire format); udpnet.h is not under src/. -/
def sizeofUDPMessage : Nat := 1167

/-- The Throttle rate limiter (throttle.h, not under src/).  Modelled from
the spec: a token bucket with a byte quota (section 4.5).  Within a single
pass of the send loop no tokens accrue (time is frozen), so the state is
the currently available quota; HasQuota(n) checks for n bytes and
UseQuota(n) consumes them. -/
structure Throttle where
  quota : Nat
deriving DecidableEq, Repr

/-- Throttle::HasQuota, modelled from the spec. -/
def Throttle.HasQuota (t : Throttle) (n : Nat) : Bool := decide (n ≤ t.quota)

/-- Throttle::UseQuota, modelled from the spec. -/
def Throttle.UseQuota (t : Throttle) (n : Nat) : Throttle := ⟨t.quota - n⟩

/-- PerGroupMessageQueue (udpnet.cpp lines 166-199): four SPSC ring buffers
in strict priority order 0..3, the active buffer id (buff_id = -1 when all
buffers were empty, modelled as none), the unlimited flag and the
token-bucket rate limiter.  A queued packet is represented by its wire
length in bytes (the remaining RingBufferElement fields — destination,
message bytes, magic — do not influence scheduling). -/
structure PerGroupMessageQueue where
  buff0 : List Nat
  buff1 : List Nat
  buff2 : List Nat
  buff3 : List Nat
  buff_id : Option Nat
  unlimited : Bool
  ratelimiter : Throttle
deriving DecidableEq, Repr

/-- buffs[i]. -/
def PerGroupMessageQueue.buff (q : PerGroupMessageQueue) : Nat → List Nat
  | 0 => q.buff0
  | 1 => q.buff1
  | 2 => q.buff2
  | _ => q.buff3

/-- replacing buffs[i]. -/
def PerGroupMessageQueue.setBuff (q : PerGroupMessageQueue) :
    Nat → List Nat → PerGroupMessageQueue
  | 0, l => { q with buff0 := l }
  | 1, l => { q with buff1 := l }
  | 2, l => { q with buff2 := l }
  | _, l => { q with buff3 := l }

/-- PerGroupMessageQueue::NextBuff (udpnet.cpp lines 180-189): the
lowest-index (highest-priority) non-empty buffer, or -1 (none). -/
def PerGroupMessageQueue.NextBuff (q : PerGroupMessageQueue) : Option Nat :=
  if q.buff0 ≠ [] then some 0
  else if q.buff1 ≠ [] then some 1
  else if q.buff2 ≠ [] then some 2
  else if q.buff3 ≠ [] then some 3
  else none

/-- The tail of one iteration of the inner transmission loop of
do_send_messages (udpnet.cpp lines 1140-1148): the group state after one
successful transmission of pkt from buffer cur leaving rest behind.  The
ring-buffer read is confirmed, the quota consumed when rate-limited, and —
when the buffer just became empty — the group advances to its next
non-empty buffer. -/
def afterSend (q : PerGroupMessageQueue) (cur pkt : Nat) (rest : List Nat) :
    PerGroupMessageQueue :=
  let q1 := { q.setBuff cur rest with
    ratelimiter := if q.unlimited then q.ratelimiter
                   else q.ratelimiter.UseQuota pkt }
  if rest = [] then { q1 with buff_id := q1.NextBuff } else q1

/-- The inner transmission loop of do_send_messages (udpnet.cpp lines
1085-1148) for one group, with no concurrent enqueues.  The loop keeps
going while the group has an active buffer, the output bitrate allows it,
and fewer than max_consecutive_tx packets have been sent consecutively.
sendOk gives the outcome of ::sendto for the n-th transmission attempt of
this pass; a short write (EAGAIN or a hard error) breaks the loop without
confirming the ring-buffer read.  Returns the final queue state together
with the trace of (buffer index, packet) pairs transmitted, in order. -/
def sendLoop (sendOk : Nat → Bool) (q : PerGroupMessageQueue)
    (consecutive : Nat) : PerGroupMessageQueue × List (Nat × Nat) :=
  match q.buff_id with
  | none => (q, [])
  | some cur =>
    if _hc : consecutive < max_consecutive_tx then
      if (q.unlimited || q.ratelimiter.HasQuota sizeofUDPMessage) = true then
        match q.buff cur with
        | [] => (q, [])
        | pkt :: rest =>
          if sendOk consecutive then
            let r := sendLoop sendOk (afterSend q cur pkt rest) (consecutive + 1)
            (r.1, (cur, pkt) :: r.2)
          else (q, [])
      else (q, [])
    else (q, [])
  termination_by max_consecutive_tx - consecutive
  decreasing_by omega

/-- The per-group body of one pass of the do_send_messages main loop
(udpnet.cpp lines 1063-1148): skip the group when its next_send time has
not yet arrived (send_due = false); otherwise re-select the active buffer
unless already sitting at the non-empty highest-priority buffer 0, skip if
every buffer is empty, and run the transmission loop. -/
def groupPass (sendOk : Nat → Bool) (q : PerGroupMessageQueue)
    (send_due : Bool) : PerGroupMessageQueue × List (Nat × Nat) :=
  if send_due = false then (q, [])
  else
    let q1 := if q.buff_id ≠ some 0 ∨ q.buff0 = []
              then { q with buff_id := q.NextBuff } else q
    match q1.buff_id with
    | none => (q1, [])
    | some _ => sendLoop sendOk q1 0

/-- A concrete group for witness runs: two packets in buffer 0, one in
buffer 3, unlimited output. -/
def qWitness : PerGroupMessageQueue :=
  { buff0 := [100, 200], buff1 := [], buff2 := [], buff3 := [300]
    buff_id := none, unlimited := true, ratelimiter := ⟨0⟩ }

/-!  GetUDPInboundPorts (udpnet.cpp lines 1830-1879): parsing and
validating the -udpport configuration.  Strings are lists of characters;
the gArgs.GetArgs("-udpport") values arrive as the args list (an unset
option is the empty list, for which the function returns the empty vector
either way). -/

/-- std::string::find(c, start): index of the first occurrence of c at
position start or later, none for npos. -/
def strFindAux (c : Char) : List Char → Nat → Option Nat
  | [], _ => none
  | a :: rest, i => if a = c then some i else strFindAux c rest (i + 1)

/-- find wrapper starting the scan at an arbitrary position. -/
def strFind (s : List Char) (c : Char) (start : Nat) : Option Nat :=
  match strFindAux c (s.drop start) 0 with
  | none => none
  | some j => some (start + j)

/-- isspace in the default locale (the characters strtoll skips). -/
def isSpaceChar (c : Char) : Bool :=
  c = ' ' || c = '\t' || c = '\n' || c = '\x0b' || c = '\x0c' || c = '\r'

/-- dropping leading whitespace. -/
def skipSpaces : List Char → List Char
  | [] => []
  | c :: rest => if isSpaceChar c then skipSpaces rest else c :: rest

/-- the value of a decimal digit, none for any other character. -/
def digitVal (c : Char) : Option Nat :=
  if '0' ≤ c ∧ c ≤ '9' then some (c.toNat - '0'.toNat) else none

/-- the numeric value of the longest leading run of decimal digits. -/
def digitsVal : List Char → Nat → Nat
  | [], acc => acc
  | c :: rest, acc =>
    match digitVal c with
    | none => acc
    | some d => digitsVal rest (acc * 10 + d)

/-- the int64 value range. -/
def INT64_MAX : Int := 2 ^ 63 - 1

/-- the smallest int64 value. -/
def INT64_MIN : Int := -(2 ^ 63)

/-- atoi64 (Bitcoin Core util/strencodings, not under src/).  Modelled from
the spec and the C standard: strtoll(s, nullptr, 10) — skip leading
whitespace, read an optional sign and the longest run of decimal digits (0
when there is none), clamping the value to the int64 range on overflow. -/
def atoi64 (s : List Char) : Int :=
  let s1 := skipSpaces s
  let signAndDigits : Bool × List Char :=
    match s1 with
    | '-' :: rest => (true, rest)
    | '+' :: rest => (false, rest)
    | _ => (false, s1)
  let n : Int := (digitsVal signAndDigits.2 0 : Nat)
  let v : Int := if signAndDigits.1 then -n else n
  if INT64_MAX < v then INT64_MAX else if v < INT64_MIN then INT64_MIN else v

/-- std::map<size_t, pair<unsigned short, uint64_t>> lookup by group: the
stored (port, bw) for a key. -/
def lookupKey (res : List (Nat × Nat × Nat)) (g : Nat) : Option (Nat × Nat) :=
  match res with
  | [] => none
  | (g', p, b) :: rest => if g' = g then some (p, b) else lookupKey rest g

/-- The body of the per-option loop of GetUDPInboundPorts (udpnet.cpp lines
1835-1867) for one -udpport value s, given the map res built so far; none
means the whole option list is rejected (the function returns the empty
vector).  The checks, in the code's order: the string must contain one or
two commas; the port must satisfy port == (unsigned short)port and be
non-zero; the group must be non-negative and not already present; the
bandwidth (third field, default 1024) must be non-negative.  On success
res[group] = (port, bw) is inserted. -/
def udpPortParseOne (res : List (Nat × Nat × Nat)) (s : List Char) :
    Option (List (Nat × Nat × Nat)) :=
  match strFind s ',' 0 with
  | none => none
  | some port_end =>
    let group_end := strFind s ',' (port_end + 1)
    let bw_end := match group_end with
      | none => none
      | some ge => strFind s ',' (ge + 1)
    if group_end.isSome ∧ bw_end.isSome then none
    else
      let port := atoi64 (s.take port_end)
      if port ≠ port % 65536 ∨ port = 0 then none
      else
        let group := atoi64 (match group_end with
          | some ge => (s.drop (port_end + 1)).take (ge - port_end - 1)
          | none => s.drop (port_end + 1))
        if group < 0 ∨ (lookupKey res group.toNat).isSome then none
        else
          let bw : Int := match group_end with
            | some ge => atoi64 (s.drop (ge + 1))
            | none => 1024
          if bw < 0 then none
          else some (res ++ [(group.toNat, port.toNat, bw.toNat)])

/-- The per-option loop of GetUDPInboundPorts, folded over every -udpport
value. -/
def udpPortLoop : List (List Char) → List (Nat × Nat × Nat) →
    Option (List (Nat × Nat × Nat))
  | [], res => some res
  | s :: rest, res =>
    match udpPortParseOne res s with
    | none => none
    | some res' => udpPortLoop rest res'

/-- GetUDPInboundPorts (udpnet.cpp lines 1830-1879): parse every -udpport
value, then walk groups 0..res.size()-1 in order, rejecting the whole
configuration (empty result) on the first missing group; otherwise return
the (port, bw) pairs in group order. -/
def getUDPInboundPorts (args : List (List Char)) : List (Nat × Nat) :=
  match udpPortLoop args [] with
  | none => []
  | some res =>
    if (List.range res.length).all (fun i => (lookupKey res i).isSome) then
      (List.range res.length).map (fun i => (lookupKey res i).getD (0, 0))
    else []

/-- A concrete accepted configuration for witness runs: port 5555 group 0,
and port 7777 group 1 with bandwidth 512. -/
def udpArgsWitness : List (List Char) :=
  [['5', '5', '5', '5', ',', '0'],
   ['7', '7', '7', '7', ',', '1', ',', '5', '1', '2']]

/-!  Helper lemmas shared by several claims. -/

/-- ProvideChunkMmap never changes chunk_count, the tracker, the memory mode
or the object size. -/
lemma provideChunkMmap_preserves (O : WirehairOracle) (d : FECDecoder)
    (c : FECChunk) (cid : Nat) :
    ((d.ProvideChunkMmap O c cid).2).chunk_count = d.chunk_count ∧
    ((d.ProvideChunkMmap O c cid).2).chunk_tracker = d.chunk_tracker ∧
    ((d.ProvideChunkMmap O c cid).2).memory_usage_mode = d.memory_usage_mode ∧
    ((d.ProvideChunkMmap O c cid).2).obj_size = d.obj_size := by
  unfold FECDecoder.ProvideChunkMmap
  split_ifs <;> simp_all

/-- ProvideChunkMemory never changes chunk_count, the tracker, the memory
mode or the object size. -/
lemma provideChunkMemory_preserves (O : WirehairOracle) (d : FECDecoder)
    (c : FECChunk) (cid : Nat) :
    ((d.ProvideChunkMemory O c cid).2).chunk_count = d.chunk_count ∧
    ((d.ProvideChunkMemory O c cid).2).chunk_tracker = d.chunk_tracker ∧
    ((d.ProvideChunkMemory O c cid).2).memory_usage_mode = d.memory_usage_mode ∧
    ((d.ProvideChunkMemory O c cid).2).obj_size = d.obj_size := by
  unfold FECDecoder.ProvideChunkMemory
  split_ifs <;> simp_all

/-- A decoder that has completed decoding is never changed by ProvideChunk. -/
lemma provideChunk_complete_state (O : WirehairOracle) (d : FECDecoder)
    (c : FECChunk) (cid : Nat) (h : d.decodeComplete = true) :
    (d.ProvideChunk O c cid).2 = d := by
  unfold FECDecoder.ProvideChunk
  repeat' split
  all_goals simp_all

/-- C4 / C9 share this fact: on a completed decoder ProvideChunk returns
exactly the id-validity bit and leaves the state alone. -/
lemma provideChunk_complete (O : WirehairOracle) (d : FECDecoder)
    (c : FECChunk) (cid : Nat) (h : d.decodeComplete = true) :
    d.ProvideChunk O c cid = (decide (cid ≤ modeIdBound d.chunk_count), d) := by
  unfold FECDecoder.ProvideChunk modeIdBound
  repeat' split
  all_goals simp_all

/-- C4: an id above the mode's id space is rejected with no state change. -/
theorem providechunk_invalid_id_rejected (O : WirehairOracle) (d : FECDecoder)
    (chunk : FECChunk) (chunk_id : Nat)
    (h : (CHUNK_COUNT_USES_CM256 d.chunk_count = true ∧ 256 ≤ chunk_id) ∨
         (CHUNK_COUNT_USES_WIREHAIR d.chunk_count = true ∧ 2 ^ 24 ≤ chunk_id)) :
    d.ProvideChunk O chunk chunk_id = (false, d) := by
  have hwire : CHUNK_COUNT_USES_WIREHAIR d.chunk_count = true →
      CHUNK_COUNT_USES_CM256 d.chunk_count = false := by
    unfold CHUNK_COUNT_USES_CM256 CHUNK_COUNT_USES_WIREHAIR
    simp
    omega
  unfold FECDecoder.ProvideChunk
  rcases h with ⟨hm, hid⟩ | ⟨hm, hid⟩
  · rw [if_pos]
    rw [hm]
    simp
    omega
  · rw [if_pos]
    rw [hwire hm]
    simp [FEC_CHUNK_COUNT_MAX]
    omega

/-- C4 witness: a fresh cm256 decoder (N = 2) rejects chunk id 256 and is
left unchanged. -/
theorem providechunk_invalid_id_rejected_witness :
    FECDecoder.ProvideChunk oracleNeedMore dCm256 zeroChunk 256 = (false, dCm256) :=
  providechunk_invalid_id_rejected oracleNeedMore dCm256 zeroChunk 256
    (Or.inl (by constructor <;> decide))

/-- C9: once the decoder has completed decoding, every further ProvideChunk
call leaves the state untouched and returns success exactly when the chunk id
is within the mode's id space (and failure otherwise). -/
theorem providechunk_after_complete_noop (O : WirehairOracle) (d : FECDecoder)
    (chunk : FECChunk) (chunk_id : Nat) (h : d.decodeComplete = true) :
    d.ProvideChunk O chunk chunk_id = (decide (chunk_id ≤ modeIdBound d.chunk_count), d) :=
  provideChunk_complete O d chunk chunk_id h

/-- C9 witness: a completed repetition decoder accepts id 7 as a no-op. -/
theorem providechunk_after_complete_noop_witness :
    FECDecoder.ProvideChunk oracleNeedMore dDone zeroChunk 7 =
      (decide (7 ≤ modeIdBound dDone.chunk_count), dDone) :=
  providechunk_after_complete_noop oracleNeedMore dDone zeroChunk 7 (by decide)

/-- ProvideChunk never changes chunk_count. -/
lemma provideChunk_chunk_count (O : WirehairOracle) (d : FECDecoder)
    (c : FECChunk) (cid : Nat) :
    ((d.ProvideChunk O c cid).2).chunk_count = d.chunk_count := by
  unfold FECDecoder.ProvideChunk
  dsimp only
  repeat' split
  all_goals
    first
    | rfl
    | exact (provideChunkMmap_preserves _ _ _ _).1
    | exact (provideChunkMemory_preserves _ _ _ _).1

/-- A successful ProvideChunk only happens on an id inside the mode's id
space. -/
lemma provideChunk_true_valid (O : WirehairOracle) (d : FECDecoder)
    (c : FECChunk) (cid : Nat) (h : (d.ProvideChunk O c cid).1 = true) :
    ¬ (if CHUNK_COUNT_USES_CM256 d.chunk_count
       then 0xff < cid else FEC_CHUNK_COUNT_MAX < cid) := by
  intro hbad
  unfold FECDecoder.ProvideChunk at h
  rw [if_pos hbad] at h
  simp at h

/-- After a successful ProvideChunk the decoder is either complete or its
tracker holds the id. -/
lemma provideChunk_mem (O : WirehairOracle) (d : FECDecoder)
    (c : FECChunk) (cid : Nat) (h : (d.ProvideChunk O c cid).1 = true) :
    ((d.ProvideChunk O c cid).2).decodeComplete = true ∨
    ((d.ProvideChunk O c cid).2).chunk_tracker.contains cid = true := by
  unfold FECDecoder.ProvideChunk at h ⊢
  dsimp only at h ⊢
  repeat' split
  all_goals try simp_all
  all_goals
    first
    | (right
       rw [(provideChunkMmap_preserves _ _ _ _).2.1]
       simp)
    | (right
       rw [(provideChunkMemory_preserves _ _ _ _).2.1]
       simp)

/-- C3: providing the same chunk id a second time returns success and leaves
the decoder exactly in the state the first (successful) call produced, so
two provide calls are equivalent to one. -/
theorem providechunk_duplicate_idempotent (O : WirehairOracle) (d d' : FECDecoder)
    (chunk : FECChunk) (chunk_id : Nat)
    (h : d.ProvideChunk O chunk chunk_id = (true, d')) :
    d'.ProvideChunk O chunk chunk_id = (true, d') := by
  have hsnd : (d.ProvideChunk O chunk chunk_id).2 = d' := by rw [h]
  have hfst : (d.ProvideChunk O chunk chunk_id).1 = true := by rw [h]
  have hcc : d'.chunk_count = d.chunk_count := by
    rw [← hsnd]
    exact provideChunk_chunk_count O d chunk chunk_id
  have hvalid := provideChunk_true_valid O d chunk chunk_id hfst
  have hmem := provideChunk_mem O d chunk chunk_id hfst
  rw [hsnd] at hmem
  unfold FECDecoder.ProvideChunk
  rw [hcc, if_neg hvalid]
  rcases hmem with hdc | htr
  · rw [hdc]
    simp
  · by_cases hdc : d'.decodeComplete = true
    · rw [hdc]
      simp
    · simp only [Bool.not_eq_true] at hdc
      rw [hdc]
      rw [if_neg (by simp : ¬ (false = true)), if_pos htr]

/-- C3 witness: after successfully providing chunk id 3 to a fresh cm256
decoder, providing it again succeeds and changes nothing. -/
theorem providechunk_duplicate_idempotent_witness :
    FECDecoder.ProvideChunk oracleNeedMore dCm256after zeroChunk 3 = (true, dCm256after) :=
  providechunk_duplicate_idempotent oracleNeedMore dCm256 dCm256after zeroChunk 3 rfl

/-- ProvideChunkMmap on a cm256-mode decoder: append to the backing store
(while there is room), mark complete on the chunk_count-th chunk, bump the
received count. -/
lemma provideChunkMmap_cm256 (O : WirehairOracle) (d : FECDecoder)
    (c : FECChunk) (cid : Nat)
    (hcm : CHUNK_COUNT_USES_CM256 d.chunk_count = true) :
    d.ProvideChunkMmap O c cid =
      (true, { d with
        storage := if d.chunks_recvd < d.chunk_count
                   then d.storage ++ [(c, cid % 2 ^ 24)] else d.storage,
        decodeComplete := if d.chunk_count = d.chunks_recvd + 1
                          then true else d.decodeComplete,
        chunks_recvd := d.chunks_recvd + 1 }) := by
  unfold FECDecoder.ProvideChunkMmap
  rw [if_pos hcm]

/-- ProvideChunkMemory on a cm256-mode decoder: append to cm256_chunks with
the uint8-truncated id, mark complete on the chunk_count-th chunk, bump the
received count. -/
lemma provideChunkMemory_cm256 (O : WirehairOracle) (d : FECDecoder)
    (c : FECChunk) (cid : Nat)
    (hcm : CHUNK_COUNT_USES_CM256 d.chunk_count = true) :
    d.ProvideChunkMemory O c cid =
      (true, { d with
        storage := d.storage ++ [(c, cid % 256)],
        decodeComplete := if d.chunk_count = d.chunks_recvd + 1
                          then true else d.decodeComplete,
        chunks_recvd := d.chunks_recvd + 1 }) := by
  unfold FECDecoder.ProvideChunkMemory
  rw [if_pos hcm]

/-- A single ProvideChunk call on a collecting cm256 decoder with a fresh
valid id: success, chunks_recvd goes up by one, and decodeComplete is set
exactly when this was the chunk_count-th distinct chunk. -/
lemma provideChunk_cm256_step (O : WirehairOracle) (d : FECDecoder)
    (c : FECChunk) (cid : Nat)
    (hcm : CHUNK_COUNT_USES_CM256 d.chunk_count = true)
    (hnc : d.decodeComplete = false)
    (hnew : d.chunk_tracker.contains cid = false)
    (hval : cid ≤ 0xff) :
    (d.ProvideChunk O c cid).1 = true ∧
    ((d.ProvideChunk O c cid).2).chunks_recvd = d.chunks_recvd + 1 ∧
    ((d.ProvideChunk O c cid).2).decodeComplete =
      decide (d.chunk_count = d.chunks_recvd + 1) ∧
    ((d.ProvideChunk O c cid).2).chunk_count = d.chunk_count ∧
    ((d.ProvideChunk O c cid).2).chunk_tracker = cid :: d.chunk_tracker := by
  have h2 : 2 ≤ d.chunk_count := by
    unfold CHUNK_COUNT_USES_CM256 at hcm
    simp only [Bool.and_eq_true, decide_eq_true_eq] at hcm
    exact hcm.1
  unfold FECDecoder.ProvideChunk
  rw [if_neg (by simp [hcm]; omega)]
  rw [hnc]
  rw [if_neg (by simp : ¬ (false = true))]
  rw [hnew]
  rw [if_neg (by simp : ¬ (false = true))]
  dsimp only
  rw [if_neg (by omega : ¬ d.chunk_count < 2)]
  split
  · rw [provideChunkMmap_cm256 O
      { d with decodeComplete := false, chunk_tracker := cid :: d.chunk_tracker }
      c cid hcm]
    refine ⟨rfl, rfl, ?_, rfl, rfl⟩
    dsimp only
    split <;> simp_all
  · rw [provideChunkMemory_cm256 O
      { d with decodeComplete := false, chunk_tracker := cid :: d.chunk_tracker }
      c cid hcm]
    refine ⟨rfl, rfl, ?_, rfl, rfl⟩
    dsimp only
    split <;> simp_all

/-- A completed decoder is left unchanged by any further sequence of
provide calls. -/
lemma provideSeq_complete (O : WirehairOracle) (cs : List (FECChunk × Nat)) :
    ∀ d : FECDecoder, d.decodeComplete = true → d.provideSeq O cs = d := by
  induction cs with
  | nil => intro d _; rfl
  | cons p rest ih =>
    intro d h
    rcases p with ⟨c, cid⟩
    unfold FECDecoder.provideSeq
    rw [provideChunk_complete_state O d c cid h]
    exact ih d h

/-- Feeding a collecting cm256 decoder a sequence of distinct, valid, fresh
chunk ids: the decoder completes exactly when the sequence covers the
missing chunk_count - chunks_recvd chunks. -/
lemma provideSeq_cm256_ready (O : WirehairOracle) :
    ∀ (cs : List (FECChunk × Nat)) (d : FECDecoder),
    CHUNK_COUNT_USES_CM256 d.chunk_count = true →
    d.decodeComplete = false →
    d.chunks_recvd < d.chunk_count →
    (cs.map Prod.snd).Nodup →
    (∀ p ∈ cs, p.2 ≤ 0xff) →
    (∀ p ∈ cs, d.chunk_tracker.contains p.2 = false) →
    (d.provideSeq O cs).decodeComplete =
      decide (d.chunk_count - d.chunks_recvd ≤ cs.length) := by
  intro cs
  induction cs with
  | nil =>
    intro d _ hnc hlt _ _ _
    unfold FECDecoder.provideSeq
    rw [hnc]
    symm
    simp only [List.length_nil, decide_eq_false_iff_not]
    omega
  | cons p rest ih =>
    intro d hcm hnc hlt hdist hval hfresh
    rcases p with ⟨c, cid⟩
    obtain ⟨-, hrecv, hcomp, hcount, htrack⟩ :=
      provideChunk_cm256_step O d c cid hcm hnc
        (hfresh (c, cid) (by simp)) (hval (c, cid) (by simp))
    unfold FECDecoder.provideSeq
    set d' := (d.ProvideChunk O c cid).2 with hd'
    by_cases heq : d.chunk_count = d.chunks_recvd + 1
    · have hc : d'.decodeComplete = true := by simp [hcomp, heq]
      rw [provideSeq_complete O rest d' hc, hc]
      symm
      simp only [List.length_cons, decide_eq_true_eq]
      omega
    · have hc : d'.decodeComplete = false := by simp [hcomp, heq]
      have hrest := ih d' (by rw [hcount]; exact hcm) hc
        (by rw [hcount, hrecv]; omega)
        (by rw [List.map_cons] at hdist; exact hdist.of_cons)
        (fun q hq => hval q (List.mem_cons_of_mem _ hq))
        (fun q hq => by
          rw [htrack]
          have hq0 := hfresh q (List.mem_cons_of_mem _ hq)
          have hne : q.2 ≠ cid := by
            intro hqeq
            rw [List.map_cons, List.nodup_cons] at hdist
            have hq2 : q.2 ∈ rest.map Prod.snd := List.mem_map_of_mem Prod.snd hq
            rw [hqeq] at hq2
            exact hdist.1 hq2
          simp only [List.contains_cons, Bool.or_eq_false_iff, beq_eq_false_iff_ne, ne_eq]
          exact ⟨hne, hq0⟩)
      rw [hrest, hcount, hrecv]
      apply decide_eq_decide.mpr
      simp only [List.length_cons]
      omega

/-- C2: a fresh decoder for an object of N = ceil(L / CHUNK_SIZE) chunks
with 2 <= N <= 256 (cm256 mode), fed any sequence of distinct valid chunks,
reports DecodeReady exactly when at least N of them have been provided:
false after fewer than N, true from the N-th distinct chunk on — in either
memory mode. -/
theorem cm256_decoder_ready_after_exactly_n (L : Nat) (mode : MemoryUsageMode)
    (O : WirehairOracle) (cs : List (FECChunk × Nat))
    (h2 : 2 ≤ DIV_CEIL L FEC_CHUNK_SIZE) (h256 : DIV_CEIL L FEC_CHUNK_SIZE ≤ 256)
    (hdist : (cs.map Prod.snd).Nodup)
    (hval : ∀ p ∈ cs, p.2 ≤ 0xff) :
    ((FECDecoder.init L mode).provideSeq O cs).DecodeReady =
      decide (DIV_CEIL L FEC_CHUNK_SIZE ≤ cs.length) := by
  have hcm : CHUNK_COUNT_USES_CM256 ((FECDecoder.init L mode).chunk_count) = true := by
    unfold FECDecoder.init CHUNK_COUNT_USES_CM256 CM256_MAX_CHUNKS
    dsimp only
    simp only [Bool.and_eq_true, decide_eq_true_eq]
    exact ⟨h2, h256⟩
  have hmain := provideSeq_cm256_ready O cs (FECDecoder.init L mode) hcm rfl
    (by unfold FECDecoder.init; dsimp only; omega)
    hdist hval
    (fun q _ => rfl)
  unfold FECDecoder.DecodeReady
  rw [hmain]
  apply decide_eq_decide.mpr
  unfold FECDecoder.init
  dsimp only
  omega

/-- C2 witness: for a 2304-byte object (N = 2) in mmap mode, two distinct
valid chunks make the decoder ready. -/
theorem cm256_decoder_ready_after_exactly_n_witness :
    ((FECDecoder.init 2304 MemoryUsageMode.USE_MMAP).provideSeq oracleNeedMore
        [(zeroChunk, 0), (zeroChunk, 1)]).DecodeReady =
      decide (DIV_CEIL 2304 FEC_CHUNK_SIZE ≤ 2) :=
  cm256_decoder_ready_after_exactly_n 2304 MemoryUsageMode.USE_MMAP oracleNeedMore
    [(zeroChunk, 0), (zeroChunk, 1)] (by decide) (by decide) (by decide) (by decide)

/-- Writing then reading back the same position of a list. -/
lemma getD_set_self {α : Type} (l : List α) (i : Nat) (v dflt : α)
    (h : i < l.length) : (l.set i v).getD i dflt = v := by
  induction l generalizing i with
  | nil => simp at h
  | cons a t ih =>
    cases i with
    | zero => rfl
    | succ n =>
      simp only [List.set_cons_succ, List.getD_cons_succ]
      exact ih n (by simpa using h)

/-- ProvideChunk on a repetition (single-chunk) decoder with a fresh valid
id: the chunk is kept in tmp_chunk and decoding completes at once. -/
lemma provideChunk_repetition (O : WirehairOracle) (d : FECDecoder)
    (c : FECChunk) (cid : Nat)
    (h1 : d.chunk_count < 2)
    (hnc : d.decodeComplete = false)
    (hnew : d.chunk_tracker.contains cid = false)
    (hid : cid ≤ FEC_CHUNK_COUNT_MAX) :
    d.ProvideChunk O c cid =
      (true, { d with chunk_tracker := cid :: d.chunk_tracker,
                      tmp_chunk := c, decodeComplete := true }) := by
  have hcm : CHUNK_COUNT_USES_CM256 d.chunk_count = false := by
    unfold CHUNK_COUNT_USES_CM256
    simp only [Bool.and_eq_false_iff]
    left
    simp only [decide_eq_false_iff_not]
    omega
  unfold FECDecoder.ProvideChunk
  rw [if_neg (by simp [hcm]; omega)]
  rw [hnc]
  rw [if_neg (by simp : ¬ (false = true))]
  rw [hnew]
  rw [if_neg (by simp : ¬ (false = true))]
  dsimp only
  rw [if_pos h1]

/-- C1: for a source object of length 0 < L <= CHUNK_SIZE (one chunk,
repetition mode), BuildChunk fills any requested fresh slot with the
zero-padded source bytes and sets the slot's chunk id to the slot index,
and one ProvideChunk of that chunk makes a fresh decoder (either memory
mode) DecodeReady with GetDecodedData returning exactly the L source
bytes. -/
theorem repetition_roundtrip (ext : EncOracles) (O : WirehairOracle)
    (codecRecover : FECDecoder → List Nat) (e : FECEncoder) (idx : Nat)
    (overwrite : Bool) (rnd : Nat) (mode : MemoryUsageMode)
    (hL0 : 0 < e.data.length) (hL : e.data.length ≤ FEC_CHUNK_SIZE)
    (hlen : e.fec_chunks.length = e.chunk_ids.length)
    (hidx : idx < e.chunk_ids.length)
    (hfresh : overwrite = true ∨ e.chunk_ids.getD idx 0 = 0)
    (hid : idx ≤ FEC_CHUNK_COUNT_MAX) :
    (∃ e', e.BuildChunk ext idx overwrite rnd = some (true, e') ∧
       e'.fec_chunks.getD idx [] = padTo FEC_CHUNK_SIZE e.data ∧
       e'.chunk_ids.getD idx 0 = idx) ∧
    (((FECDecoder.init e.data.length mode).ProvideChunk O
        (padTo FEC_CHUNK_SIZE e.data) idx).1 = true ∧
     ((((FECDecoder.init e.data.length mode).ProvideChunk O
        (padTo FEC_CHUNK_SIZE e.data) idx).2).DecodeReady = true ∧
      (((FECDecoder.init e.data.length mode).ProvideChunk O
        (padTo FEC_CHUNK_SIZE e.data) idx).2).GetDecodedData codecRecover = e.data)) := by
  have hN : DIV_CEIL e.data.length FEC_CHUNK_SIZE = 1 := by
    unfold DIV_CEIL FEC_CHUNK_SIZE
    unfold FEC_CHUNK_SIZE at hL
    omega
  constructor
  · -- the encoder side
    have hbc : e.BuildChunk ext idx overwrite rnd =
        some (true, { e with
          fec_chunks := e.fec_chunks.set idx (padTo FEC_CHUNK_SIZE e.data)
          chunk_ids := e.chunk_ids.set idx idx }) := by
      unfold FECEncoder.BuildChunk
      rw [if_neg (by omega)]
      rw [if_neg (by
        rcases hfresh with h | h
        · simp [h]
        · exact fun hc => hc.2 h)]
      dsimp only
      rw [hN]
      rw [if_pos (by omega)]
    refine ⟨_, hbc, ?_, ?_⟩
    · dsimp only
      exact getD_set_self e.fec_chunks idx _ _ (by omega)
    · dsimp only
      exact getD_set_self e.chunk_ids idx _ _ hidx
  · -- the decoder side
    have hstep := provideChunk_repetition O (FECDecoder.init e.data.length mode)
      (padTo FEC_CHUNK_SIZE e.data) idx
      (by unfold FECDecoder.init; dsimp only; omega)
      rfl rfl hid
    rw [hstep]
    refine ⟨rfl, rfl, ?_⟩
    unfold FECDecoder.GetDecodedData FECDecoder.init
    dsimp only
    rw [if_pos hN]
    unfold padTo
    have := List.take_left e.data (List.replicate (FEC_CHUNK_SIZE - e.data.length) 0)
    exact this

/-- C1 witness: the 5-byte object [1,2,3,4,5], slot 0, in-memory decoder. -/
theorem repetition_roundtrip_witness :
    (∃ e', eRep.BuildChunk extTrivial 0 false 0 = some (true, e') ∧
       e'.fec_chunks.getD 0 [] = padTo FEC_CHUNK_SIZE eRep.data ∧
       e'.chunk_ids.getD 0 0 = 0) ∧
    (((FECDecoder.init eRep.data.length MemoryUsageMode.USE_MEMORY).ProvideChunk
        oracleNeedMore (padTo FEC_CHUNK_SIZE eRep.data) 0).1 = true ∧
     ((((FECDecoder.init eRep.data.length MemoryUsageMode.USE_MEMORY).ProvideChunk
        oracleNeedMore (padTo FEC_CHUNK_SIZE eRep.data) 0).2).DecodeReady = true ∧
      (((FECDecoder.init eRep.data.length MemoryUsageMode.USE_MEMORY).ProvideChunk
        oracleNeedMore (padTo FEC_CHUNK_SIZE eRep.data) 0).2).GetDecodedData
          (fun _ => []) = eRep.data)) :=
  repetition_roundtrip extTrivial oracleNeedMore (fun _ => []) eRep 0 false 0
    MemoryUsageMode.USE_MEMORY (by decide) (by decide) (by decide) (by decide)
    (Or.inr (by decide)) (by decide)

/-- Reading any position of a replicate list. -/
lemma getD_replicate {α : Type} (n i : Nat) (a dflt : α) (h : i < n) :
    (List.replicate n a).getD i dflt = a := by
  induction n generalizing i with
  | zero => omega
  | succ m ih =>
    cases i with
    | zero => rfl
    | succ j =>
      simp only [List.replicate, List.getD_cons_succ]
      exact ih j (by omega)

/-- The cm256 branch of FECEncoder::BuildChunk with a nonzero divisor: on a
non-early-returning call, the chunk id written into the requested slot is
((cm256_start + vector_idx) mod (0xff - N in size_t arithmetic)),
truncated to uint32, plus N — where cm256_start is the already-picked
offset, or rnd % 0xff freshly drawn by GetRand(0xff) on the first call. -/
lemma buildChunk_cm256_formula (ext : EncOracles) (e : FECEncoder) (idx : Nat)
    (overwrite : Bool) (rnd : Nat)
    (hN2 : 2 ≤ DIV_CEIL e.data.length FEC_CHUNK_SIZE)
    (hN256 : DIV_CEIL e.data.length FEC_CHUNK_SIZE ≤ 256)
    (hidx : idx < e.chunk_ids.length)
    (hfresh : overwrite = true ∨ e.chunk_ids.getD idx 0 = 0)
    (hmod : cm256Modulus (DIV_CEIL e.data.length FEC_CHUNK_SIZE) ≠ 0) :
    ∃ e', e.BuildChunk ext idx overwrite rnd = some (true, e') ∧
      e'.cm256_start_idx = some (e.cm256_start_idx.getD (rnd % 0xff)) ∧
      e'.chunk_ids.getD idx 0 =
        ((e.cm256_start_idx.getD (rnd % 0xff) + idx) %
            cm256Modulus (DIV_CEIL e.data.length FEC_CHUNK_SIZE)) % 2 ^ 32 +
          DIV_CEIL e.data.length FEC_CHUNK_SIZE := by
  have hcm : CHUNK_COUNT_USES_CM256 (DIV_CEIL e.data.length FEC_CHUNK_SIZE) = true := by
    unfold CHUNK_COUNT_USES_CM256 CM256_MAX_CHUNKS
    simp only [Bool.and_eq_true, decide_eq_true_eq]
    exact ⟨hN2, hN256⟩
  unfold FECEncoder.BuildChunk
  rw [if_neg (by omega)]
  rw [if_neg (by
    rcases hfresh with h | h
    · simp [h]
    · exact fun hc => hc.2 h)]
  dsimp only
  rw [if_neg (by omega : ¬ DIV_CEIL e.data.length FEC_CHUNK_SIZE < 2)]
  rw [if_neg (fun hc => hmod hc.2)]
  rw [if_pos hcm]
  dsimp only
  split
  · -- overwrite with an unchanged deterministic id: nothing to write
    rename_i hsame
    exact ⟨_, rfl, rfl, hsame.2⟩
  · refine ⟨_, rfl, rfl, ?_⟩
    dsimp only
    exact getD_set_self e.chunk_ids idx _ _ hidx

/-- The cm256 branch of FECEncoder::BuildChunk with data_chunks = 255: the
divisor 0xff - data_chunks of the id computation (fec.cpp line 569) is
zero, so a non-early-returning call divides by zero — undefined behavior,
modelled as none. -/
lemma buildChunk_cm256_div_zero (ext : EncOracles) (e : FECEncoder) (idx : Nat)
    (overwrite : Bool) (rnd : Nat)
    (hN255 : DIV_CEIL e.data.length FEC_CHUNK_SIZE = 255)
    (hidx : idx < e.chunk_ids.length)
    (hfresh : overwrite = true ∨ e.chunk_ids.getD idx 0 = 0) :
    e.BuildChunk ext idx overwrite rnd = none := by
  have hcm : CHUNK_COUNT_USES_CM256 (DIV_CEIL e.data.length FEC_CHUNK_SIZE) = true := by
    unfold CHUNK_COUNT_USES_CM256 CM256_MAX_CHUNKS
    simp only [Bool.and_eq_true, decide_eq_true_eq]
    omega
  have hz : cm256Modulus (DIV_CEIL e.data.length FEC_CHUNK_SIZE) = 0 := by
    rw [hN255]
    rfl
  unfold FECEncoder.BuildChunk
  rw [if_neg (by omega)]
  rw [if_neg (by
    rcases hfresh with h | h
    · simp [h]
    · exact fun hc => hc.2 h)]
  dsimp only
  rw [if_neg (by omega : ¬ DIV_CEIL e.data.length FEC_CHUNK_SIZE < 2)]
  rw [if_pos ⟨hcm, hz⟩]

/-- C5 counterexample: for an N = 2 object, first call with random draw 0 on
slot 253: the code stores chunk id (0 + 253) mod (255 - 2) + 2 = 2, while
the claimed formula (0 + 253) mod (256 - 2) + 2 yields 255. -/
theorem buildchunk_cm256_modulus_counterexample :
    ∃ e', eCm2.BuildChunk extTrivial 253 false 0 = some (true, e') ∧
      e'.chunk_ids.getD 253 0 = 2 ∧
      (0 + 253) % (256 - 2) + 2 = 255 ∧ (2 : Nat) ≠ 255 := by
  have hlen : eCm2.data.length = 2304 := List.length_replicate 2304 1
  have hN : DIV_CEIL eCm2.data.length FEC_CHUNK_SIZE = 2 := by
    rw [hlen]
    decide
  have hids : eCm2.chunk_ids = List.replicate 254 0 := rfl
  obtain ⟨e', hb, hs, hid⟩ := buildChunk_cm256_formula extTrivial eCm2 253 false 0
    (by rw [hN]) (by rw [hN]; omega)
    (by rw [hids, List.length_replicate]; omega)
    (Or.inr (by rw [hids]; exact getD_replicate 254 253 0 0 (by omega)))
    (by rw [hN]; decide)
  refine ⟨e', hb, ?_, by decide, by decide⟩
  rw [hid, hN]
  have hstart : eCm2.cm256_start_idx = none := rfl
  rw [hstart]
  decide

/-- C5 (amended): for a cm256 object (2 <= N <= 256), BuildChunk picks
cm256_start = rnd % 0xff (GetRand(0xff), a value in [0, 255)) on the first
call and reuses the stored value on later calls.  The divisor of the id
computation is 0xff - N evaluated in 64-bit unsigned (size_t) arithmetic:
at N = 255 it is zero, so a non-early-returning call divides by zero at
fec.cpp line 569 — undefined behavior (a crash), modelled as none; for
every other N in range, every built slot gets
chunk_id = ((cm256_start + index) mod (0xff - N)) + N, the quotient
truncated to uint32, where 0xff - N is 255 - N for N <= 254 and wraps to
2^64 - 1 for N = 256. -/
theorem buildchunk_cm256_id_formula (ext : EncOracles) (e : FECEncoder) (idx : Nat)
    (overwrite : Bool) (rnd : Nat)
    (hN2 : 2 ≤ DIV_CEIL e.data.length FEC_CHUNK_SIZE)
    (hN256 : DIV_CEIL e.data.length FEC_CHUNK_SIZE ≤ 256)
    (hidx : idx < e.chunk_ids.length)
    (hfresh : overwrite = true ∨ e.chunk_ids.getD idx 0 = 0) :
    (DIV_CEIL e.data.length FEC_CHUNK_SIZE = 255 →
       e.BuildChunk ext idx overwrite rnd = none) ∧
    (DIV_CEIL e.data.length FEC_CHUNK_SIZE ≠ 255 →
       ∃ e', e.BuildChunk ext idx overwrite rnd = some (true, e') ∧
         e'.cm256_start_idx = some (e.cm256_start_idx.getD (rnd % 0xff)) ∧
         e'.chunk_ids.getD idx 0 =
           ((e.cm256_start_idx.getD (rnd % 0xff) + idx) %
               cm256Modulus (DIV_CEIL e.data.length FEC_CHUNK_SIZE)) % 2 ^ 32 +
             DIV_CEIL e.data.length FEC_CHUNK_SIZE) := by
  constructor
  · intro h255
    exact buildChunk_cm256_div_zero ext e idx overwrite rnd h255 hidx hfresh
  · intro hne
    have hmod : cm256Modulus (DIV_CEIL e.data.length FEC_CHUNK_SIZE) ≠ 0 := by
      unfold cm256Modulus
      omega
    exact buildChunk_cm256_formula ext e idx overwrite rnd hN2 hN256 hidx hfresh hmod

/-- C5 witness: the amended statement at the concrete N = 2 encoder, slot 3,
random draw 7 (here N = 2 is not 255, so the defined branch applies and the
chunk id is (7 + 3) mod 253 + 2 = 12). -/
theorem buildchunk_cm256_id_formula_witness :
    (DIV_CEIL eCm2.data.length FEC_CHUNK_SIZE = 255 →
       eCm2.BuildChunk extTrivial 3 false 7 = none) ∧
    (DIV_CEIL eCm2.data.length FEC_CHUNK_SIZE ≠ 255 →
       ∃ e', eCm2.BuildChunk extTrivial 3 false 7 = some (true, e') ∧
         e'.cm256_start_idx = some (eCm2.cm256_start_idx.getD (7 % 0xff)) ∧
         e'.chunk_ids.getD 3 0 =
           ((eCm2.cm256_start_idx.getD (7 % 0xff) + 3) %
               cm256Modulus (DIV_CEIL eCm2.data.length FEC_CHUNK_SIZE)) % 2 ^ 32 +
             DIV_CEIL eCm2.data.length FEC_CHUNK_SIZE) :=
  buildchunk_cm256_id_formula extTrivial eCm2 3 false 7
    (by show 2 ≤ DIV_CEIL (List.replicate 2304 1 : List Nat).length FEC_CHUNK_SIZE
        rw [List.length_replicate]
        decide)
    (by show DIV_CEIL (List.replicate 2304 1 : List Nat).length FEC_CHUNK_SIZE ≤ 256
        rw [List.length_replicate]
        decide)
    (by show 3 < (List.replicate 254 0 : List Nat).length
        rw [List.length_replicate]
        omega)
    (Or.inr (getD_replicate 254 3 0 0 (by omega)))

/-- writeAt preserves the file length for in-bounds writes. -/
lemma writeAt_length {f xs : List Nat} {off : Nat}
    (h : off + xs.length ≤ f.length) :
    (writeAt f off xs).length = f.length := by
  unfold writeAt
  simp only [List.length_append, List.length_take, List.length_drop]
  omega

/-- Reading back exactly the bytes just written. -/
lemma readAt_writeAt_self {f xs : List Nat} {off : Nat}
    (h : off + xs.length ≤ f.length) :
    readAt (writeAt f off xs) off xs.length = xs := by
  unfold readAt writeAt
  rw [List.append_assoc]
  rw [List.drop_append_of_le_length (by rw [List.length_take]; omega)]
  rw [List.drop_take]
  simp only [Nat.sub_self, List.take_zero, List.nil_append]
  exact List.take_left xs _

/-- Reading below a later write sees the original bytes. -/
lemma readAt_writeAt_before {f ys : List Nat} {off len off2 : Nat}
    (hle : off + len ≤ off2) (hf : off2 ≤ f.length) :
    readAt (writeAt f off2 ys) off len = readAt f off len := by
  unfold readAt writeAt
  have h1 : (f.take off2).length = off2 := by
    rw [List.length_take]
    omega
  rw [List.append_assoc]
  rw [List.drop_append_of_le_length (by omega)]
  rw [List.take_append_of_le_length (by rw [List.length_drop, h1]; omega)]
  rw [List.drop_take]
  rw [List.take_take]
  rw [min_eq_left (by omega)]

/-- A stored 3-byte chunk id decodes back to the id modulo 2^24. -/
lemma idOfBytes_idBytes (cid : Nat) : idOfBytes (idBytes cid) = cid % 2 ^ 24 := by
  unfold idOfBytes idBytes
  simp only [List.getD_cons_zero, List.getD_cons_succ]
  omega

/-- C6 counterexample: constructing the store with create = true for N = 2
leaves the backing file at exactly N * (CHUNK_SIZE + 3) bytes, but the
storage is NOT memory-mapped (m_data_storage stays null), so Insert on the
freshly created store dereferences a null mapping instead of operating on
it. -/
theorem mapstorage_create_not_mapped_counterexample :
    ∃ st f, MapStorage.construct none 2 true = some (st, f) ∧
      f.length = (CHUNK_ID_SIZE + FEC_CHUNK_SIZE) * 2 ∧
      st.m_mapping = none ∧
      MapStorage.Insert st f zeroChunk 5 0 = none := by
  refine ⟨_, _, rfl, ?_, rfl, rfl⟩
  simp only [Option.getD_none, List.take_nil, List.length_append,
    List.length_replicate, List.length_nil]
  unfold CHUNK_ID_SIZE FEC_CHUNK_SIZE
  omega

/-- C6 (amended): constructing with create = true leaves the backing file at
exactly N * (CHUNK_SIZE + 3) bytes, but does not map the storage; the
mapping (read-write, shared) is established by re-opening the store with
create = false, and Insert/GetChunk/GetChunkId then operate on the
re-opened store: an inserted chunk and its 24-bit id read back exactly. -/
theorem mapstorage_create_then_open (c : Nat) (file : Option (List Nat)) :
    ∃ st f, MapStorage.construct file c true = some (st, f) ∧
      f.length = (CHUNK_ID_SIZE + FEC_CHUNK_SIZE) * c ∧
      st.m_file_size = (CHUNK_ID_SIZE + FEC_CHUNK_SIZE) * c ∧
      st.m_mapping = none ∧
      ∃ st', MapStorage.construct (some f) c false = some (st', f) ∧
        st'.m_mapping = some { prot_read := true, prot_write := true,
                               map_shared := true } ∧
        ∀ chunk cid idx, idx < c → List.length chunk = FEC_CHUNK_SIZE →
          ∃ f', st'.Insert f chunk cid idx = some f' ∧
            st'.GetChunk f' idx = some chunk ∧
            st'.GetChunkId f' idx = some (cid % 2 ^ 24) := by
  have hflen : ∀ f0 : List Nat,
      (f0.take ((CHUNK_ID_SIZE + FEC_CHUNK_SIZE) * c) ++
        List.replicate ((CHUNK_ID_SIZE + FEC_CHUNK_SIZE) * c -
          (f0.take ((CHUNK_ID_SIZE + FEC_CHUNK_SIZE) * c)).length) 0).length =
      (CHUNK_ID_SIZE + FEC_CHUNK_SIZE) * c := by
    intro f0
    simp only [List.length_append, List.length_replicate, List.length_take]
    omega
  refine ⟨_, _, rfl, hflen _, rfl, rfl, ?_⟩
  refine ⟨_, rfl, rfl, ?_⟩
  intro chunk cid idx hidx hclen
  set f := (file.getD []).take ((CHUNK_ID_SIZE + FEC_CHUNK_SIZE) * c) ++
    List.replicate ((CHUNK_ID_SIZE + FEC_CHUNK_SIZE) * c -
      ((file.getD []).take ((CHUNK_ID_SIZE + FEC_CHUNK_SIZE) * c)).length) 0 with hf
  have hlen : f.length = (CHUNK_ID_SIZE + FEC_CHUNK_SIZE) * c := hflen _
  have hdata_inbounds : idx * FEC_CHUNK_SIZE + chunk.length ≤ f.length := by
    rw [hlen, hclen]
    unfold CHUNK_ID_SIZE FEC_CHUNK_SIZE
    omega
  have hid_off : c * FEC_CHUNK_SIZE + idx * CHUNK_ID_SIZE + CHUNK_ID_SIZE ≤ f.length := by
    rw [hlen]
    unfold CHUNK_ID_SIZE FEC_CHUNK_SIZE
    omega
  have hdisj : idx * FEC_CHUNK_SIZE + FEC_CHUNK_SIZE ≤
      c * FEC_CHUNK_SIZE + idx * CHUNK_ID_SIZE := by
    unfold CHUNK_ID_SIZE FEC_CHUNK_SIZE
    omega
  have hlen1 : (writeAt f (idx * FEC_CHUNK_SIZE) chunk).length = f.length :=
    writeAt_length hdata_inbounds
  refine ⟨writeAt (writeAt f (idx * FEC_CHUNK_SIZE) chunk)
      (c * FEC_CHUNK_SIZE + idx * CHUNK_ID_SIZE) (idBytes cid), ?_, ?_, ?_⟩
  · unfold MapStorage.Insert
    rw [if_pos hidx]
  · unfold MapStorage.GetChunk
    rw [if_pos hidx]
    dsimp only
    congr 1
    rw [readAt_writeAt_before hdisj
      (by rw [hlen1, hlen]; unfold CHUNK_ID_SIZE FEC_CHUNK_SIZE; omega)]
    rw [← hclen, readAt_writeAt_self (by
      rw [hclen] at hdata_inbounds ⊢
      exact hdata_inbounds)]
  · unfold MapStorage.GetChunkId
    rw [if_pos hidx]
    dsimp only
    congr 1
    have hrd : readAt (writeAt (writeAt f (idx * FEC_CHUNK_SIZE) chunk)
        (c * FEC_CHUNK_SIZE + idx * CHUNK_ID_SIZE) (idBytes cid))
        (c * FEC_CHUNK_SIZE + idx * CHUNK_ID_SIZE) CHUNK_ID_SIZE = idBytes cid := by
      have h3 : (idBytes cid).length = CHUNK_ID_SIZE := rfl
      rw [← h3, readAt_writeAt_self (by rw [h3, hlen1]; omega)]
    rw [hrd, idOfBytes_idBytes]

/-- C6 witness: the amended behaviour at N = 2 with a fresh file: create
then re-open, insert the zero chunk with id 5 at slot 0, and read both
back. -/
theorem mapstorage_create_then_open_witness :
    ∃ st f, MapStorage.construct none 2 true = some (st, f) ∧
      st.m_mapping = none ∧
      f.length = (CHUNK_ID_SIZE + FEC_CHUNK_SIZE) * 2 ∧
      ∃ st' f', MapStorage.construct (some f) 2 false = some (st', f) ∧
        st'.Insert f zeroChunk 5 0 = some f' ∧
        st'.GetChunk f' 0 = some zeroChunk ∧
        st'.GetChunkId f' 0 = some (5 % 2 ^ 24) := by
  obtain ⟨st, f, h1, h2, h3, h4, st', h5, h6, h7⟩ :=
    mapstorage_create_then_open 2 none
  obtain ⟨f', hi, hg, hgid⟩ :=
    h7 zeroChunk 5 0 (by omega) (List.length_replicate _ _)
  exact ⟨st, f, h1, h4, h2, st', f', h5, hi, hg, hgid⟩

/-- The code's scramble is an involution: applying it twice restores every
byte. -/
lemma scrambleFrom_involution (chk1 : List Nat) :
    ∀ (k : Nat) (body : List Nat),
    scrambleFrom chk1 k (scrambleFrom chk1 k body) = body := by
  intro k body
  induction body generalizing k with
  | nil => rfl
  | cons b rest ih =>
    simp only [scrambleFrom]
    rw [ih (k + 1)]
    rw [Nat.xor_assoc, Nat.xor_self, Nat.xor_zero]

/-- C7 counterexample: with a tag whose two 8-byte halves differ (here the
constant tag 01..00 02..00 over a 16-byte zero body), the body FillChecksum
actually transmits differs from the spec's alternating-halves scramble: the
code XORs the second 8-byte block with chk1 again, not with chk2. -/
theorem fillchecksum_scramble_not_alternating :
    (FillChecksum authConst16 0 msg16).body ≠
      scrambleSpec ((authConst16 msg16.body (checksumKey 0)).take 8)
        ((authConst16 msg16.body (checksumKey 0)).drop 8) msg16.body := by
  decide

/-- C7 (amended): for every connection magic, every body and every tag
function, FillChecksum followed by CheckChecksum verifies successfully and
restores every scrambled body byte — the XOR scramble over 8-byte chunks
uses the first 8-byte tag half (chk1) for every chunk, and is exactly
reversed on receive before the tag is verified. -/
theorem fill_then_check_roundtrip (auth : AuthOracle) (magic : Nat)
    (msg : UDPMessage) :
    (CheckChecksum auth magic (FillChecksum auth magic msg)).1 = true ∧
    ((CheckChecksum auth magic (FillChecksum auth magic msg)).2).body = msg.body := by
  unfold CheckChecksum FillChecksum scramble
  dsimp only
  rw [scrambleFrom_involution]
  simp

/-- The transmission loop sends at most max_consecutive_tx - consecutive
further packets. -/
lemma sendLoop_length_le (sendOk : Nat → Bool) :
    ∀ (n : Nat) (q : PerGroupMessageQueue) (consecutive : Nat),
    max_consecutive_tx - consecutive = n →
    ((sendLoop sendOk q consecutive).2).length ≤ n := by
  intro n
  induction n with
  | zero =>
    intro q consecutive h
    rw [sendLoop]
    split
    · simp
    · rw [dif_neg (by omega)]
      simp
  | succ m ih =>
    intro q consecutive h
    rw [sendLoop]
    split
    · simp
    · rw [dif_pos (by omega)]
      split
      · split
        · simp
        · split
          · dsimp only
            simp only [List.length_cons]
            exact Nat.succ_le_succ (ih _ (consecutive + 1) (by omega))
          · simp
      · simp

/-- afterSend from buffer 3 keeps buffers 0-2 and replaces buffer 3 by the
remaining packets. -/
lemma afterSend3_fields (q : PerGroupMessageQueue) (pkt : Nat) (rest : List Nat) :
    (afterSend q 3 pkt rest).buff0 = q.buff0 ∧
    (afterSend q 3 pkt rest).buff1 = q.buff1 ∧
    (afterSend q 3 pkt rest).buff2 = q.buff2 ∧
    (afterSend q 3 pkt rest).buff3 = rest := by
  unfold afterSend PerGroupMessageQueue.setBuff
  dsimp only
  split <;> exact ⟨rfl, rfl, rfl, rfl⟩

/-- afterSend from buffer 3 with buffers 0-2 empty: the group goes idle
exactly when buffer 3 is drained. -/
lemma afterSend3_buff_id (q : PerGroupMessageQueue) (pkt : Nat) (rest : List Nat)
    (h0 : q.buff0 = []) (h1 : q.buff1 = []) (h2 : q.buff2 = []) :
    (afterSend q 3 pkt rest).buff_id =
      if rest = [] then none else q.buff_id := by
  unfold afterSend PerGroupMessageQueue.setBuff
  dsimp only
  by_cases hrest : rest = []
  · rw [if_pos hrest, if_pos hrest]
    dsimp only
    unfold PerGroupMessageQueue.NextBuff
    simp [h0, h1, h2, hrest]
  · rw [if_neg hrest, if_neg hrest]

/-- afterSend from buffer 0 keeps buffers 1-3 and replaces buffer 0 by the
remaining packets. -/
lemma afterSend0_fields (q : PerGroupMessageQueue) (pkt : Nat) (rest : List Nat) :
    (afterSend q 0 pkt rest).buff0 = rest ∧
    (afterSend q 0 pkt rest).buff1 = q.buff1 ∧
    (afterSend q 0 pkt rest).buff2 = q.buff2 ∧
    (afterSend q 0 pkt rest).buff3 = q.buff3 := by
  unfold afterSend PerGroupMessageQueue.setBuff
  dsimp only
  split <;> exact ⟨rfl, rfl, rfl, rfl⟩

/-- afterSend from buffer 0 with buffers 1-2 empty: on draining buffer 0
the group falls through to buffer 3 (or goes idle). -/
lemma afterSend0_buff_id (q : PerGroupMessageQueue) (pkt : Nat) (rest : List Nat)
    (h1 : q.buff1 = []) (h2 : q.buff2 = []) :
    (afterSend q 0 pkt rest).buff_id =
      if rest = [] then (if q.buff3 = [] then none else some 3)
      else q.buff_id := by
  unfold afterSend PerGroupMessageQueue.setBuff
  dsimp only
  by_cases hrest : rest = []
  · rw [if_pos hrest, if_pos hrest]
    dsimp only
    unfold PerGroupMessageQueue.NextBuff
    by_cases h3 : q.buff3 = [] <;> simp [h1, h2, h3, hrest]
  · rw [if_neg hrest, if_neg hrest]

/-- With buffers 0-2 empty and the group sitting at buffer 3, the loop
drains a prefix of buffer 3 only. -/
lemma sendLoop_buff3_only (sendOk : Nat → Bool) :
    ∀ (n : Nat) (q : PerGroupMessageQueue) (consecutive : Nat),
    max_consecutive_tx - consecutive = n →
    q.buff0 = [] → q.buff1 = [] → q.buff2 = [] → q.buff_id = some 3 →
    ∃ k, (sendLoop sendOk q consecutive).2 =
      (q.buff3.take k).map (fun p => (3, p)) := by
  intro n
  induction n with
  | zero =>
    intro q consecutive h h0 h1 h2 hb
    rw [sendLoop]
    rw [hb]
    dsimp only
    rw [dif_neg (by omega)]
    exact ⟨0, rfl⟩
  | succ m ih =>
    intro q consecutive h h0 h1 h2 hb
    rw [sendLoop]
    rw [hb]
    dsimp only
    rw [dif_pos (by omega)]
    split
    · -- quota available
      rcases hbuf : q.buff 3 with _ | ⟨pkt, rest⟩
      · exact ⟨0, rfl⟩
      · have hb3 : q.buff3 = pkt :: rest := hbuf
        dsimp only
        split
        · -- send succeeded
          by_cases hrest : rest = []
          · -- buffer 3 drained: the next iteration finds the group idle
            have hid := afterSend3_buff_id q pkt rest h0 h1 h2
            rw [if_pos hrest] at hid
            rw [sendLoop, hid]
            dsimp only
            refine ⟨1, ?_⟩
            rw [hb3]
            rfl
          · have hid := afterSend3_buff_id q pkt rest h0 h1 h2
            rw [if_neg hrest, hb] at hid
            have hf := afterSend3_fields q pkt rest
            obtain ⟨k, hk⟩ := ih (afterSend q 3 pkt rest) (consecutive + 1)
              (by omega)
              (by rw [hf.1]; exact h0) (by rw [hf.2.1]; exact h1)
              (by rw [hf.2.2.1]; exact h2) hid
            refine ⟨k + 1, ?_⟩
            dsimp only
            rw [hk, hf.2.2.2, hb3]
            rfl
        · exact ⟨0, rfl⟩
    · exact ⟨0, rfl⟩

/-- With buffers 1 and 2 empty and the group sitting at buffer 0, the loop
sends a FIFO prefix of buffer 0, and touches buffer 3 only after buffer 0
has been drained completely. -/
lemma sendLoop_priority (sendOk : Nat → Bool) :
    ∀ (n : Nat) (q : PerGroupMessageQueue) (consecutive : Nat),
    max_consecutive_tx - consecutive = n →
    q.buff1 = [] → q.buff2 = [] → q.buff_id = some 0 →
    ∃ a c, (sendLoop sendOk q consecutive).2 =
      (q.buff0.take a).map (fun p => (0, p)) ++
        (q.buff3.take c).map (fun p => (3, p)) ∧
      (0 < c → a = q.buff0.length) := by
  intro n
  induction n with
  | zero =>
    intro q consecutive h h1 h2 hb
    rw [sendLoop]
    rw [hb]
    dsimp only
    rw [dif_neg (by omega)]
    exact ⟨0, 0, rfl, by omega⟩
  | succ m ih =>
    intro q consecutive h h1 h2 hb
    rw [sendLoop]
    rw [hb]
    dsimp only
    rw [dif_pos (by omega)]
    split
    · rcases hbuf : q.buff 0 with _ | ⟨pkt, rest⟩
      · exact ⟨0, 0, rfl, by omega⟩
      · have hb0 : q.buff0 = pkt :: rest := hbuf
        dsimp only
        split
        · -- send succeeded
          have hf := afterSend0_fields q pkt rest
          have hid := afterSend0_buff_id q pkt rest h1 h2
          by_cases hrest : rest = []
          · -- buffer 0 drained by this send
            rw [if_pos hrest] at hid
            by_cases h3 : q.buff3 = []
            · rw [if_pos h3] at hid
              rw [sendLoop, hid]
              dsimp only
              refine ⟨1, 0, ?_, by omega⟩
              rw [hb0]
              rfl
            · rw [if_neg h3] at hid
              obtain ⟨k, hk⟩ := sendLoop_buff3_only sendOk
                (max_consecutive_tx - (consecutive + 1))
                (afterSend q 0 pkt rest) (consecutive + 1) rfl
                (by rw [hf.1]; exact hrest) (by rw [hf.2.1]; exact h1)
                (by rw [hf.2.2.1]; exact h2) hid
              refine ⟨1, k, ?_, ?_⟩
              · dsimp only
                rw [hk, hf.2.2.2, hb0]
                rfl
              · intro _
                rw [hb0, hrest]
                rfl
          · rw [if_neg hrest, hb] at hid
            obtain ⟨a, c, hac, himp⟩ := ih (afterSend q 0 pkt rest)
              (consecutive + 1) (by omega)
              (by rw [hf.2.1]; exact h1) (by rw [hf.2.2.1]; exact h2) hid
            rw [hf.1] at himp
            refine ⟨a + 1, c, ?_, ?_⟩
            · dsimp only
              rw [hac, hf.1, hf.2.2.2, hb0]
              rfl
            · intro hc
              rw [hb0]
              have := himp hc
              simp [this]
        · exact ⟨0, 0, rfl, by omega⟩
    · exact ⟨0, 0, rfl, by omega⟩

/-- C8: in a pass of the sender loop over a group whose next_send time has
arrived, with packets queued in buffers 0 and 3 (buffers 1, 2 empty) and no
concurrent enqueues, transmission starts from the highest-priority
non-empty buffer: at most max_consecutive_tx = 10 packets are sent in the
pass, the trace is a FIFO prefix of buffer 0 followed by a prefix of buffer
3, and no buffer-3 packet is sent unless buffer 0 was drained completely
(otherwise the pass stopped early — cap, quota, or send failure). -/
theorem sender_priority_and_consecutive_cap (sendOk : Nat → Bool)
    (q : PerGroupMessageQueue)
    (h1 : q.buff1 = []) (h2 : q.buff2 = []) (h0 : q.buff0 ≠ []) :
    ((groupPass sendOk q true).2).length ≤ max_consecutive_tx ∧
    ∃ a c, (groupPass sendOk q true).2 =
      (q.buff0.take a).map (fun p => (0, p)) ++
        (q.buff3.take c).map (fun p => (3, p)) ∧
      (0 < c → a = q.buff0.length) := by
  have hsel : ∀ q1 : PerGroupMessageQueue, q1.buff_id = some 0 →
      q1.buff0 = q.buff0 → q1.buff1 = [] → q1.buff2 = [] → q1.buff3 = q.buff3 →
      ((sendLoop sendOk q1 0).2).length ≤ max_consecutive_tx ∧
      ∃ a c, (sendLoop sendOk q1 0).2 =
        (q.buff0.take a).map (fun p => (0, p)) ++
          (q.buff3.take c).map (fun p => (3, p)) ∧
        (0 < c → a = q.buff0.length) := by
    intro q1 hid hb0 hb1 hb2 hb3
    constructor
    · exact sendLoop_length_le sendOk max_consecutive_tx q1 0 rfl
    · obtain ⟨a, c, hac, himp⟩ :=
        sendLoop_priority sendOk max_consecutive_tx q1 0 rfl hb1 hb2 hid
      rw [hb0, hb3] at hac
      rw [hb0] at himp
      exact ⟨a, c, hac, himp⟩
  unfold groupPass
  rw [if_neg (by simp)]
  dsimp only
  by_cases hcase : q.buff_id ≠ some 0 ∨ q.buff0 = []
  · rw [if_pos hcase]
    have hnb : q.NextBuff = some 0 := by
      unfold PerGroupMessageQueue.NextBuff
      rw [if_pos h0]
    rw [hnb]
    exact hsel _ rfl rfl h1 h2 rfl
  · rw [if_neg hcase]
    push_neg at hcase
    rw [hcase.1]
    exact hsel q hcase.1 rfl h1 h2 rfl

/-- C8 witness: a group with packets of 100 and 200 bytes in buffer 0 and
300 bytes in buffer 3, every send succeeding. -/
theorem sender_priority_and_consecutive_cap_witness :
    ((groupPass (fun _ => true) qWitness true).2).length ≤ max_consecutive_tx ∧
    ∃ a c, (groupPass (fun _ => true) qWitness true).2 =
      (qWitness.buff0.take a).map (fun p => (0, p)) ++
        (qWitness.buff3.take c).map (fun p => (3, p)) ∧
      (0 < c → a = qWitness.buff0.length) :=
  sender_priority_and_consecutive_cap (fun _ => true) qWitness rfl rfl (by decide)

/-- lookupKey finds nothing exactly when the group key is absent. -/
lemma lookupKey_eq_none (res : List (Nat × Nat × Nat)) (g : Nat) :
    lookupKey res g = none ↔ g ∉ res.map (fun r => r.1) := by
  induction res with
  | nil => simp [lookupKey]
  | cons r rest ih =>
    rcases r with ⟨g', p, b⟩
    by_cases hg : g' = g
    · subst hg
      simp [lookupKey]
    · have hg2 : ¬ (g = g') := fun e => hg e.symm
      simp [lookupKey, hg, hg2, ih]

/-- lookupKey finds something exactly when the group key is present. -/
lemma lookupKey_isSome (res : List (Nat × Nat × Nat)) (g : Nat) :
    (lookupKey res g).isSome = true ↔ g ∈ res.map (fun r => r.1) := by
  rw [Option.isSome_iff_ne_none, ne_eq, lookupKey_eq_none]
  simp

/-- What a single accepted -udpport value guarantees: the string has the
comma shape, the port parses to a non-zero 16-bit value, any configured
bandwidth is non-negative, the group is new, and the map grows by exactly
that entry. -/
lemma udpPortParseOne_spec (res : List (Nat × Nat × Nat)) (s : List Char)
    (res' : List (Nat × Nat × Nat)) (h : udpPortParseOne res s = some res') :
    ∃ pe g p b,
      strFind s ',' 0 = some pe ∧
      atoi64 (s.take pe) ≠ 0 ∧
      atoi64 (s.take pe) = atoi64 (s.take pe) % 65536 ∧
      (∀ ge, strFind s ',' (pe + 1) = some ge → 0 ≤ atoi64 (s.drop (ge + 1))) ∧
      lookupKey res g = none ∧
      0 < p ∧ p < 65536 ∧
      res' = res ++ [(g, p, b)] := by
  unfold udpPortParseOne at h
  rcases hpe : strFind s ',' 0 with _ | pe
  · rw [hpe] at h
    exact absurd h (by simp)
  · rw [hpe] at h
    dsimp only at h
    split at h
    · exact absurd h (by simp)
    · split at h
      · exact absurd h (by simp)
      · rename_i hport
        split at h
        · exact absurd h (by simp)
        · rename_i hgroup
          split at h
          · exact absurd h (by simp)
          · rename_i hbw
            push_neg at hport hgroup
            have hne := hport.2
            have heq := hport.1
            have hnn : 0 ≤ atoi64 (s.take pe) % 65536 :=
              Int.emod_nonneg _ (by norm_num)
            have hlt : atoi64 (s.take pe) % 65536 < 65536 :=
              Int.emod_lt_of_pos _ (by norm_num)
            have hx0 : 0 ≤ atoi64 (s.take pe) := by
              rw [heq]
              exact hnn
            have hx1 : atoi64 (s.take pe) < 65536 := by
              rw [heq]
              exact hlt
            rw [Option.some_inj] at h
            refine ⟨pe, _, _, _, rfl, hne, heq, ?_,
              Option.not_isSome_iff_eq_none.mp hgroup.2, ?_, ?_, h.symm⟩
            · intro ge hge
              rw [hge] at hbw
              dsimp only at hbw
              omega
            · omega
            · omega

/-- The accumulated facts of the whole -udpport loop: one accepted entry
per option string, distinct group keys, 16-bit non-zero ports. -/
lemma udpPortLoop_facts :
    ∀ (args : List (List Char)) (res res' : List (Nat × Nat × Nat)),
    udpPortLoop args res = some res' →
    res'.length = res.length + args.length ∧
    ((res.map fun r => r.1).Nodup → (res'.map fun r => r.1).Nodup) ∧
    (∀ r ∈ res', r ∈ res ∨ (0 < r.2.1 ∧ r.2.1 < 65536)) ∧
    (∀ s ∈ args, ∃ pe,
      strFind s ',' 0 = some pe ∧ atoi64 (s.take pe) ≠ 0 ∧
      atoi64 (s.take pe) = atoi64 (s.take pe) % 65536 ∧
      ∀ ge, strFind s ',' (pe + 1) = some ge → 0 ≤ atoi64 (s.drop (ge + 1))) := by
  intro args
  induction args with
  | nil =>
    intro res res' h
    unfold udpPortLoop at h
    rw [Option.some_inj] at h
    subst h
    exact ⟨rfl, fun hd => hd, fun r hr => Or.inl hr, by simp⟩
  | cons s rest ih =>
    intro res res' h
    unfold udpPortLoop at h
    rcases hone : udpPortParseOne res s with _ | res1
    · rw [hone] at h
      exact absurd h (by simp)
    · rw [hone] at h
      obtain ⟨pe, g, p, b, hpe, hne, heq, hbw, hfresh, hp0, hp16, hres1⟩ :=
        udpPortParseOne_spec res s res1 hone
      obtain ⟨ihlen, ihnd, ihent, ihargs⟩ := ih res1 res' h
      subst hres1
      refine ⟨?_, ?_, ?_, ?_⟩
      · rw [ihlen]
        simp only [List.length_append, List.length_cons, List.length_nil]
        omega
      · intro hd
        apply ihnd
        rw [List.map_append, List.map_singleton]
        apply List.Nodup.append hd (by simp)
        intro x hx hb
        simp only [List.mem_singleton] at hb
        rw [hb] at hx
        exact (lookupKey_eq_none res g).mp hfresh hx
      · intro r hr
        rcases ihent r hr with hin | hcond
        · rcases List.mem_append.mp hin with hin2 | hin2
          · exact Or.inl hin2
          · simp only [List.mem_singleton] at hin2
            subst hin2
            exact Or.inr ⟨hp0, hp16⟩
        · exact Or.inr hcond
      · intro t ht
        rcases List.mem_cons.mp ht with ht2 | ht2
        · subst ht2
          exact ⟨pe, hpe, hne, heq, hbw⟩
        · exact ihargs t ht2

/-- C10: GetUDPInboundPorts accepts a -udpport configuration (returns a
non-empty vector) only when every option string parses with a port that is
a non-zero 16-bit value and a non-negative bandwidth when given, and the
configured group numbers are distinct and exactly the contiguous set
{0, ..., n-1} for n option strings; by contraposition, any gap, repeated
group, invalid port or negative bandwidth rejects the whole list. -/
theorem getudpinboundports_accepts_only_contiguous (args : List (List Char))
    (h : getUDPInboundPorts args ≠ []) :
    ∃ res : List (Nat × Nat × Nat),
      udpPortLoop args [] = some res ∧
      res.length = args.length ∧
      (res.map fun r => r.1).Nodup ∧
      (∀ g, g ∈ res.map (fun r => r.1) ↔ g < args.length) ∧
      (∀ r ∈ res, 0 < r.2.1 ∧ r.2.1 < 65536) ∧
      (∀ s ∈ args, ∃ pe,
        strFind s ',' 0 = some pe ∧ atoi64 (s.take pe) ≠ 0 ∧
        atoi64 (s.take pe) = atoi64 (s.take pe) % 65536 ∧
        ∀ ge, strFind s ',' (pe + 1) = some ge → 0 ≤ atoi64 (s.drop (ge + 1))) := by
  unfold getUDPInboundPorts at h
  rcases hl : udpPortLoop args [] with _ | res
  · rw [hl] at h
    exact absurd rfl h
  · rw [hl] at h
    dsimp only at h
    obtain ⟨hlen, hnd, hent, hargs⟩ := udpPortLoop_facts args [] res hl
    simp only [List.length_nil, Nat.zero_add] at hlen
    have hnodup : (res.map fun r => r.1).Nodup := hnd (by simp)
    have hcheck : ((List.range res.length).all
        fun i => (lookupKey res i).isSome) = true := by
      by_contra hno
      exact h (if_neg hno)
    have hall : ∀ i < res.length, (lookupKey res i).isSome = true := by
      intro i hi
      exact List.all_eq_true.mp hcheck i (List.mem_range.mpr hi)
    have hforward : ∀ i < res.length, i ∈ res.map (fun r => r.1) :=
      fun i hi => (lookupKey_isSome res i).mp (hall i hi)
    have hsets : (res.map fun r => r.1).toFinset = Finset.range res.length := by
      symm
      apply Finset.eq_of_subset_of_card_le
      · intro i hi
        rw [List.mem_toFinset]
        exact hforward i (Finset.mem_range.mp hi)
      · rw [List.toFinset_card_of_nodup hnodup]
        rw [Finset.card_range, List.length_map]
    have hiff : ∀ g, g ∈ res.map (fun r => r.1) ↔ g < args.length := by
      intro g
      rw [← List.mem_toFinset, hsets, Finset.mem_range, hlen]
    refine ⟨res, rfl, hlen, hnodup, hiff, ?_, hargs⟩
    intro r hr
    rcases hent r hr with hin | hcond
    · exact absurd hin (List.not_mem_nil r)
    · exact hcond

/-- C10 witness: the two-entry configuration port 5555 group 0 and port
7777 group 1 bandwidth 512 is accepted, so the theorem's conditions hold
of it. -/
theorem getudpinboundports_accepts_only_contiguous_witness :
    ∃ res : List (Nat × Nat × Nat),
      udpPortLoop udpArgsWitness [] = some res ∧
      res.length = udpArgsWitness.length ∧
      (res.map fun r => r.1).Nodup ∧
      (∀ g, g ∈ res.map (fun r => r.1) ↔ g < udpArgsWitness.length) ∧
      (∀ r ∈ res, 0 < r.2.1 ∧ r.2.1 < 65536) ∧
      (∀ s ∈ udpArgsWitness, ∃ pe,
        strFind s ',' 0 = some pe ∧ atoi64 (s.take pe) ≠ 0 ∧
        atoi64 (s.take pe) = atoi64 (s.take pe) % 65536 ∧
        ∀ ge, strFind s ',' (pe + 1) = some ge → 0 ≤ atoi64 (s.drop (ge + 1))) :=
  getudpinboundports_accepts_only_contiguous udpArgsWitness (by decide)

end Fibre

